import Mathlib

/-!
Verification of the go-llm-lens symbol indexer and query engine.

This file gives a shallow embedding, in Lean 4, of the core of the
go-llm-lens repository: the symbol-table data model
(`internal/symtab/symtab.go`), the index builder
(`internal/indexer/indexer.go`, in particular method-set construction via
`types.NewMethodSet(types.NewPointer(named))`), the query engine
(`internal/finder`, whose bundled source provides `FindSymbol` and
`FindImplementations`), and the `get_function` tool handler.

Go semantics that the repository delegates to `go/types` — method sets with
promotion through embedded fields, shadowing and ambiguity, exact structural
signature identity, interface satisfaction (`types.Implements`), and the
sorting of method sets by each method object's unique `Id()` — are modelled
explicitly below, following the algorithms of `go/types`
(`methodset.go`, `interface.go`).

Strings are manipulated through their underlying character lists so that
every definition evaluates inside the kernel.
-/

deriving instance DecidableEq for Except

namespace GoLens

/-! ## Character-list string helpers (Go `strings` package semantics). -/

/-- The code points of a string, the sort key used below. UTF-8 byte order
agrees with code-point order, so lexicographic order on these keys matches
Go `<` on strings. -/
def strKey (s : String) : List Nat := s.data.map Char.toNat

/-- Lexicographic strict order on code-point lists, as used by Go string
comparison. -/
def lexLtB : List Nat → List Nat → Bool
  | [], [] => false
  | [], _ :: _ => true
  | _ :: _, [] => false
  | a :: as, b :: bs =>
    if a < b then true
    else if b < a then false
    else lexLtB as bs

/-- Lexicographic `≤` on code-point lists: `a ≤ b` iff `¬ b < a`. -/
def lexLeB (a b : List Nat) : Bool := !(lexLtB b a)

/-- Adjacent-pairs lexicographic ordering check on a list of keys. -/
def chainLeB : List (List Nat) → Bool
  | [] => true
  | [_] => true
  | a :: b :: rest => lexLeB a b && chainLeB (b :: rest)

/-- Go `strings.HasPrefix` over character lists (pattern first). -/
def hasPrefB : List Char → List Char → Bool
  | [], _ => true
  | _ :: _, [] => false
  | p :: ps, c :: cs => (p == c) && hasPrefB ps cs

/-- Go `strings.Contains` over character lists. -/
def hasSubB (s sub : List Char) : Bool :=
  (List.range (s.length + 1)).any (fun i => hasPrefB sub (s.drop i))

/-- Go `strings.HasPrefix` on strings. -/
def strHasPref (s p : String) : Bool := hasPrefB p.data s.data

/-- Go `strings.Contains` on strings. -/
def strHasSub (s sub : String) : Bool := hasSubB s.data sub.data

/-- ASCII whitespace recognizer, the fragment of `unicode.IsSpace` relevant
to Go doc comments. -/
def isSpaceB (c : Char) : Bool :=
  c.toNat == 32 || c.toNat == 9 || c.toNat == 10 ||
  c.toNat == 11 || c.toNat == 12 || c.toNat == 13

/-- Go `strings.TrimSpace` (ASCII fragment). -/
def strTrim (s : String) : String :=
  String.mk (((s.data.dropWhile isSpaceB).reverse.dropWhile isSpaceB).reverse)

/-- Go `strings.Cut(s, ".")`: splits at the first dot; `none` when no dot
occurs (the `ok = false` case of `strings.Cut`). -/
def cutDotB : List Char → Option (List Char × List Char)
  | [] => none
  | c :: cs =>
    if c == '.' then some ([], cs)
    else match cutDotB cs with
      | none => none
      | some (l, r) => some (c :: l, r)

/-- `strings.Cut(name, ".")` on strings. -/
def cutDot (s : String) : Option (String × String) :=
  match cutDotB s.data with
  | none => none
  | some (l, r) => some (String.mk l, String.mk r)

/-- Whether a Go identifier is exported (`token.IsExported`): its first
character is an upper-case letter (ASCII fragment of `unicode.IsUpper`). -/
def isExportedM (s : String) : Bool :=
  match s.data with
  | [] => false
  | c :: _ => 65 ≤ c.toNat && c.toNat ≤ 90

/-- Comma-separated join, as `go/types` renders tuples. -/
def joinComma : List String → String
  | [] => ""
  | [x] => x
  | x :: xs => x ++ ", " ++ joinComma xs

/-! ## Signatures and method declarations.

`go/types` compares signatures with `types.Identical`: parameter and result
types in order, plus the variadic marker, ignoring parameter and result
names. `types.TypeString` renders names when present. The model keeps both:
`ptypes`/`rtypes` are the fully qualified type strings used for identity,
`pnames`/`rnames` only feed the renderer. For a variadic signature the last
entry of `ptypes` carries the `...` marker, exactly as `TypeString` prints
it. -/

structure Sig where
  pnames : List String
  ptypes : List String
  rnames : List String
  rtypes : List String
  variadic : Bool
deriving DecidableEq, Repr

/-- Signature identity as used by `types.Identical` on signatures when
checking interface satisfaction: types and variadicity, not names. -/
def sigMatch (a b : Sig) : Bool :=
  a.ptypes == b.ptypes && a.rtypes == b.rtypes && a.variadic == b.variadic

/-- One method declaration as `go/types` sees it: name, declaring package
(for the unique `Id()`), receiver rendering data, signature, and the doc and
body text the indexer attaches from its position-keyed maps. -/
structure MethodDecl where
  mname : String
  pkg : String
  recvName : String
  recvT : String
  ptrRecv : Bool
  sig : Sig
  doc : String
  body : String
  file : String
  line : Nat
deriving DecidableEq, Repr

/-- The unique `Id()` of a method object (`types.Id`): the bare name when
exported, otherwise the package path, a dot, and the name. -/
def methodId (m : MethodDecl) : String :=
  if isExportedM m.mname then m.mname else m.pkg ++ "." ++ m.mname

/-- Sort key for method-set ordering: the code points of the `Id()`. -/
def idKey (m : MethodDecl) : List Nat := strKey (methodId m)

/-! ## Rendering signature strings (`Indexer.buildSignature`).

`types.TypeString(sig, nil)` yields `func(params) results`; the indexer
reuses everything after `func` and splices the receiver in front. -/

/-- One rendered parameter or named result: `name type` or just `type`. -/
def renderVar (n t : String) : String :=
  if n == "" then t else n ++ " " ++ t

/-- The `(params) results` tail of `types.TypeString` for a signature. -/
def renderSigTail (s : Sig) : String :=
  let params := joinComma (List.zipWith renderVar s.pnames s.ptypes)
  let res :=
    match s.rtypes, s.rnames with
    | [], _ => ""
    | [t], [n] => if n == "" then " " ++ t else " (" ++ n ++ " " ++ t ++ ")"
    | ts, ns => " (" ++ joinComma (List.zipWith renderVar ns ts) ++ ")"
  "(" ++ params ++ ")" ++ res

/-- `Indexer.buildSignature`: `func Name(...)` for free functions; for
methods the receiver is rendered without its name when the name is empty or
the blank identifier. -/
def buildSignatureM (name : String) (recv : Option (String × String)) (s : Sig) : String :=
  let rest := renderSigTail s
  match recv with
  | none => "func " ++ name ++ rest
  | some (rn, rt) =>
    if rn == "" || rn == "_" then "func (" ++ rt ++ ") " ++ name ++ rest
    else "func (" ++ rn ++ " " ++ rt ++ ") " ++ name ++ rest

/-- The receiver type string of a method (`Indexer.receiverString` /
`types.TypeString` of the receiver type). -/
def recvTypeStr (m : MethodDecl) : String :=
  (if m.ptrRecv then "*" else "") ++ m.recvT

/-! ## The resolved type environment.

`Indexer.typePkgs` retains one `*types.Package` per loaded package; looking
a name up in a scope yields a `types.Object`. The model flattens all scopes
into one list of named definitions keyed by the package-qualified name,
which is exactly what `types.TypeString(t, nil)` prints for a named type. -/

/-- One named struct field: name, fully qualified type string, tag, and the
comment the indexer attaches from `buildFieldDocMap`. -/
structure FieldM where
  fname : String
  ftype : String
  tag : String
  fcomment : String
deriving DecidableEq, Repr

/-- One embedded (anonymous) struct field: the qualified name of the target
type, the implicit field name (the bare type name), and whether the field
type is a pointer. -/
structure EmbedM where
  qn : String
  fieldName : String
  isPtrE : Bool
deriving DecidableEq, Repr

/-- The underlying shape of a scope object: a struct type, an interface
type (explicit methods plus embedded interface names), another named type
that may carry methods, or a non-type object (function, var, const). -/
inductive DBody where
  | structB (fields : List FieldM) (embeds : List EmbedM) (methods : List MethodDecl)
  | ifaceB (explicitM : List MethodDecl) (embedIf : List String)
  | otherB (methods : List MethodDecl)
  | nonTypeB
deriving DecidableEq, Repr

/-- One entry of a resolved package scope. -/
structure NamedDef where
  pkg : String
  sname : String
  body : DBody
  doc : String
  file : String
  line : Nat
deriving DecidableEq, Repr

/-- The package-qualified name, as `types.TypeString` renders it. -/
def qnameOf (d : NamedDef) : String := d.pkg ++ "." ++ d.sname

/-- The flattened union of all resolved package scopes. -/
abbrev TEnv := List NamedDef

/-- Resolve a qualified name to its definition. -/
def envLookup (env : TEnv) (qn : String) : Option NamedDef :=
  env.find? (fun d => qnameOf d == qn)

/-- `typePkgs[pkg].Scope().Lookup(name)`. -/
def scopeLookup (env : TEnv) (pkg name : String) : Option NamedDef :=
  env.find? (fun d => d.pkg == pkg && d.sname == name)

/-- The `Id()` of a struct field (fields are declared in the struct's own
package). -/
def fieldId (pkg n : String) : String :=
  if isExportedM n then n else pkg ++ "." ++ n

/-- The complete method list of an interface: explicit methods plus,
transitively, the methods of embedded interfaces — what
`types.Interface.Method` enumerates after completion. Fueled because the
environment is a flat list; Go rejects embedding cycles. -/
def ifaceAll (env : TEnv) : Nat → List MethodDecl → List String → List MethodDecl
  | 0, ex, _ => ex
  | fuel + 1, ex, em =>
    ex ++ em.flatMap (fun qn =>
      match envLookup env qn with
      | some ⟨_, _, .ifaceB ex2 em2, _, _, _⟩ => ifaceAll env fuel ex2 em2
      | _ => [])

/-! ## Method sets (`go/types` `methodset.go`, `NewMethodSet`).

The breadth-first walk over embedded fields below mirrors `NewMethodSet`:
at each depth the candidate methods and fields of all frontier types are
collected; a name (keyed by its unique `Id()`) found at a shallower depth
shadows deeper ones; two candidates with the same key at one depth, a field
with the same key, or a type reached through multiple same-depth embedding
paths (`multiples`) make the key a collision that blocks but is not
reported. The walk itself is independent of whether the starting type is
taken by pointer: a pointer-receiver method on a non-indirect path is
entered as a collision in the value-form set (see `methodSet.add`), so the
value-form method set is the pointer-form set filtered by
`indirect || !ptrRecv`, with identical blocking structure. -/

/-- One selection of the computed method set: the method, the length of
`Selection.Index()` (embedding hops + 1), and whether the path to it passed
through a pointer when the start is taken by value. -/
structure Sel where
  m : MethodDecl
  indexLen : Nat
  relIndirect : Bool
deriving DecidableEq, Repr

/-- A candidate method found at the current depth. -/
structure MCand where
  m : MethodDecl
  ilen : Nat
  ind : Bool
  mult : Bool
deriving DecidableEq, Repr

/-- One frontier entry of the walk: the type to visit, the index length its
methods will receive, path indirection, and the `multiples` flag. -/
structure Front where
  qn : String
  ilen : Nat
  ind : Bool
  mult : Bool
deriving DecidableEq, Repr

/-- The accumulated method set: `Id()` key to selection, `none` marking a
collision. -/
abbrev Base := List (String × Option Sel)

/-- `consolidateMultiples`, with an accumulator of already-kept type names:
merge same-type frontier entries at one depth, keeping the first and
marking it `multiples`. -/
def consolidateGo (seenQ : List String) : List Front → List Front
  | [] => []
  | f :: fs =>
    if seenQ.contains f.qn then consolidateGo seenQ fs
    else
      { f with mult := f.mult || fs.any (fun g => g.qn == f.qn) } ::
        consolidateGo (f.qn :: seenQ) fs

/-- `consolidateMultiples`. -/
def consolidate (l : List Front) : List Front := consolidateGo [] l

/-- What one frontier entry contributes: candidate methods, field keys
(with their `multiples` flags), and the next-depth frontier entries. -/
def entryCands (env : TEnv) (f : Front) : List MCand × List (String × Bool) × List Front :=
  match envLookup env f.qn with
  | none => ([], [], [])
  | some d =>
    match d.body with
    | .structB fields embeds methods =>
      (methods.map (fun m => ⟨m, f.ilen, f.ind, f.mult⟩),
       fields.map (fun fl => (fieldId d.pkg fl.fname, f.mult)) ++
         embeds.map (fun e => (fieldId d.pkg e.fieldName, f.mult)),
       embeds.map (fun e => ⟨e.qn, f.ilen + 1, f.ind || e.isPtrE, f.mult⟩))
    | .ifaceB ex em =>
      ((ifaceAll env (env.length + 1) ex em).map (fun m => ⟨m, f.ilen, true, f.mult⟩), [], [])
    | .otherB methods =>
      (methods.map (fun m => ⟨m, f.ilen, f.ind, f.mult⟩), [], [])
    | .nonTypeB => ([], [], [])

/-- Whether the accumulated set already binds a key. -/
def baseHas (base : Base) (k : String) : Bool := base.any (fun e => e.1 == k)

/-- The entry one depth contributes for key `k`: a unique, non-`multiples`
method candidate not colliding with a field, otherwise a collision. -/
def depthEntry (ms : List MCand) (fs : List (String × Bool)) (k : String) : Option Sel :=
  if fs.any (fun p => p.1 == k) then none
  else match ms.filter (fun c => methodId c.m == k) with
    | [c] => if c.mult then none else some ⟨c.m, c.ilen, c.ind⟩
    | _ => none

/-- All keys surfacing at one depth. -/
def depthKeys (ms : List MCand) (fs : List (String × Bool)) : List String :=
  (ms.map (fun c => methodId c.m) ++ fs.map (fun p => p.1)).dedup

/-- Merge one depth into the accumulated set: keys already bound are kept
(shallower shadows deeper), new keys receive this depth's entry. -/
def mergeDepth (base : Base) (ms : List MCand) (fs : List (String × Bool)) : Base :=
  base ++ ((depthKeys ms fs).filter (fun k => !(baseHas base k))).map
    (fun k => (k, depthEntry ms fs k))

/-- The breadth-first loop of `NewMethodSet`. -/
def bfsLoop (env : TEnv) : Nat → Base → List String → List Front → Base
  | 0, base, _, _ => base
  | fuel + 1, base, seen, frontier =>
    match (consolidate frontier).filter (fun f => !(seen.contains f.qn)) with
    | [] => base
    | fr =>
      bfsLoop env fuel
        (mergeDepth base (fr.flatMap (fun f => (entryCands env f).1))
          (fr.flatMap (fun f => (entryCands env f).2.1)))
        (seen ++ fr.map (fun f => f.qn))
        (fr.flatMap (fun f => (entryCands env f).2.2))

/-- The full candidate set for a named type, collisions included. -/
def computeBase (env : TEnv) (qn : String) : Base :=
  bfsLoop env (env.length + 2) [] [] [⟨qn, 1, false, false⟩]

/-- The surviving selections of an accumulated set. -/
def baseSels (b : Base) : List Sel := b.filterMap (fun e => e.2)

/-- `types.NewMethodSet(types.NewPointer(T))` for named `T`: every
surviving selection. -/
def msetPtr (env : TEnv) (qn : String) : List Sel := baseSels (computeBase env qn)

/-- `types.NewMethodSet(T)` for named non-interface `T`: pointer-receiver
methods are reachable only through an indirect path. -/
def msetVal (env : TEnv) (qn : String) : List Sel :=
  (msetPtr env qn).filter (fun s => s.relIndirect || !s.m.ptrRecv)

/-! ## The symbol-table records (`internal/symtab/symtab.go`). -/

/-- `symtab.Location`. -/
structure LocationM where
  file : String
  line : Nat
deriving DecidableEq, Repr

/-- `symtab.FuncInfo`. -/
structure FuncInfoM where
  name : String
  package : String
  receiver : String
  signature : String
  doc : String
  body : String
  isPromoted : Bool
  location : LocationM
deriving DecidableEq, Repr

/-- The ordering property the spec asserts for a built methods list:
lexicographically sorted by bare method name. -/
def sortedByName (ms : List FuncInfoM) : Bool :=
  chainLeB (ms.map (fun f => strKey f.name))

/-- `symtab.TypeKind`. -/
inductive TypeKindM
  | kstruct
  | kiface
  | kalias
  | kother
deriving DecidableEq, Repr

/-- `symtab.TypeInfo`. Note that the record has no field recording a
value-versus-pointer satisfaction form. -/
structure TypeInfoM where
  name : String
  package : String
  kind : TypeKindM
  fields : List FieldM
  methods : List FuncInfoM
  embeds : List String
  doc : String
  location : LocationM
deriving DecidableEq, Repr

/-- `symtab.VarInfo`. -/
structure VarInfoM where
  name : String
  package : String
  vtype : String
  isConst : Bool
  doc : String
  location : LocationM
deriving DecidableEq, Repr

/-- `symtab.PackageInfo`. -/
structure PackageInfoM where
  importPath : String
  pname : String
  dir : String
  files : List String
  funcs : List FuncInfoM
  types : List TypeInfoM
  vars : List VarInfoM
deriving DecidableEq, Repr

/-- `symtab.SymbolKind`. -/
inductive SymbolKindM
  | kfunc
  | kmethod
  | ktype
  | kvar
  | kconst
deriving DecidableEq, Repr

/-- `symtab.SymbolRef`. -/
structure SymbolRefM where
  name : String
  package : String
  kind : SymbolKindM
  receiver : String
  signature : String
  location : LocationM
deriving DecidableEq, Repr

/-! ## Building the index records (`internal/indexer/indexer.go`). -/

/-- `Indexer.funcInfo`: project a function or method object into a
`symtab.FuncInfo`. A free function is modelled as a declaration with an
empty receiver type. `IsPromoted` stays at its zero value here, exactly as
in the source. -/
def funcInfoOf (pkgPath : String) (m : MethodDecl) : FuncInfoM :=
  { name := m.mname
    package := pkgPath
    receiver := if m.recvT == "" then "" else recvTypeStr m
    signature :=
      buildSignatureM m.mname
        (if m.recvT == "" then none else some (m.recvName, recvTypeStr m)) m.sig
    doc := m.doc
    body := m.body
    isPromoted := false
    location := ⟨m.file, m.line⟩ }

/-- Sort a list by the unique `Id()` of the method each element designates,
as `go/types` sorts method sets (`sort by unique name` in `methodset.go`)
and interface methods (`sortMethods`). -/
def sortById (key : α → MethodDecl) (l : List α) : List α :=
  List.insertionSort (fun a b => lexLeB (idKey (key a)) (idKey (key b)) = true) l

/-- `Indexer.namedMethods`: every selection of
`types.NewMethodSet(types.NewPointer(named))` in its sorted order, marked
promoted when `len(sel.Index()) > 1`. -/
def namedMethodsM (env : TEnv) (pkgPath qn : String) : List FuncInfoM :=
  (sortById (fun s => s.m) (msetPtr env qn)).map
    (fun s =>
      let fi := funcInfoOf pkgPath s.m
      if 1 < s.indexLen then { fi with isPromoted := true } else fi)

/-- `Indexer.interfaceMethods`: only the explicitly declared methods, in
the sorted order `types.Interface` stores them. -/
def interfaceMethodsM (pkgPath : String) (ex : List MethodDecl) : List FuncInfoM :=
  (sortById id ex).map (funcInfoOf pkgPath)

/-- `Indexer.structFields`: named fields versus embedded type names; an
embedded entry is rendered as its type string. -/
def embedDisp (e : EmbedM) : String := (if e.isPtrE then "*" else "") ++ e.qn

/-- `Indexer.typeInfo`: project one scope type object into a
`symtab.TypeInfo`. The alias branch for non-named types is irrelevant to
the claims and not populated by the model fixtures. -/
def typeInfoOf (env : TEnv) (d : NamedDef) : TypeInfoM :=
  let base : TypeInfoM :=
    { name := d.sname, package := d.pkg, kind := .kother, fields := [],
      methods := [], embeds := [], doc := d.doc, location := ⟨d.file, d.line⟩ }
  match d.body with
  | .structB fields embeds _ =>
    { base with
        kind := .kstruct
        fields := fields
        embeds := embeds.map embedDisp
        methods := namedMethodsM env d.pkg (qnameOf d) }
  | .ifaceB ex em =>
    { base with
        kind := .kiface
        methods := interfaceMethodsM d.pkg ex
        embeds := em }
  | .otherB _ =>
    { base with kind := .kother, methods := namedMethodsM env d.pkg (qnameOf d) }
  | .nonTypeB => base

/-! ## The query engine (`internal/finder`). -/

/-- The whole queryable state: the retained resolved scopes
(`Indexer.typePkgs`, flattened), the set of loaded package paths, and the
indexed packages (`Indexer.pkgInfos`, the Go map modelled as a list). -/
structure ModelIndex where
  defs : TEnv
  typePkgPaths : List String
  pkgInfos : List PackageInfoM
deriving DecidableEq, Repr

/-- `matchesQuery`: prefix and substring modes, everything else compared
exactly (the `default` arm of the source switch). -/
def matchesQueryM (symbolName query mode : String) : Bool :=
  if mode == "prefix" then strHasPref symbolName query
  else if mode == "contains" then strHasSub symbolName query
  else symbolName == query

/-- `refsFromFuncs`. -/
def refsFromFuncsM (pkg : PackageInfoM) (name mode : String) : List SymbolRefM :=
  (pkg.funcs.filter (fun f => matchesQueryM f.name name mode)).map
    (fun f =>
      { name := f.name, package := pkg.importPath, kind := .kfunc,
        receiver := "", signature := f.signature, location := f.location })

/-- `refsFromTypes`: the type declaration itself and each of its methods
are independent candidates. -/
def refsFromTypesM (pkg : PackageInfoM) (name mode : String) : List SymbolRefM :=
  pkg.types.flatMap (fun t =>
    (if matchesQueryM t.name name mode then
      [{ name := t.name, package := pkg.importPath, kind := .ktype,
         receiver := "", signature := "", location := t.location }]
     else []) ++
    (t.methods.filter (fun m => matchesQueryM m.name name mode)).map
      (fun m =>
        { name := m.name, package := pkg.importPath, kind := .kmethod,
          receiver := m.receiver, signature := m.signature, location := m.location }))

/-- `refsFromVars`. -/
def refsFromVarsM (pkg : PackageInfoM) (name mode : String) : List SymbolRefM :=
  (pkg.vars.filter (fun v => matchesQueryM v.name name mode)).map
    (fun v =>
      { name := v.name, package := pkg.importPath,
        kind := if v.isConst then .kconst else .kvar,
        receiver := "", signature := "", location := v.location })

/-- `Finder.FindSymbol`: scan every indexed package. -/
def findSymbolScan (E : ModelIndex) (name mode : String) : List SymbolRefM :=
  E.pkgInfos.flatMap (fun pkg =>
    refsFromFuncsM pkg name mode ++ refsFromTypesM pkg name mode ++
      refsFromVarsM pkg name mode)

/-- The query-layer error taxonomy. -/
inductive QErr
  | invalidMatchMode (mode : String)
deriving DecidableEq, Repr

/-- Modelled from the spec: the current `internal/finder.FindSymbol` is not
under `src` (only its handlers and tests are; the bundled older finder
revision lacks mode validation, while `internal/tools/symbols_test.go`
requires an `unknown match mode` error). Per the spec, an unrecognized
`matchMode` fails with an invalid-argument error before any search; a
recognized mode delegates to the scan above, which is translated from the
bundled finder source. -/
def findSymbolChecked (E : ModelIndex) (name mode : String) :
    Except QErr (List SymbolRefM) :=
  if mode == "exact" || mode == "prefix" || mode == "contains" then
    .ok (findSymbolScan E name mode)
  else .error (.invalidMatchMode mode)

/-- The complete interface method list of an interface-shaped definition. -/
def ifaceAllOf (env : TEnv) (d : NamedDef) : List MethodDecl :=
  match d.body with
  | .ifaceB ex em => ifaceAll env (env.length + 1) ex em
  | _ => []

/-- The method set `types.Implements` consults for a scope object, by
form: interfaces satisfy through their own method set and a pointer to an
interface has no methods; non-type objects have none. -/
def msetOfDef (env : TEnv) (d : NamedDef) (isPtr : Bool) : List Sel :=
  match d.body with
  | .structB .. => if isPtr then msetPtr env (qnameOf d) else msetVal env (qnameOf d)
  | .otherB _ => if isPtr then msetPtr env (qnameOf d) else msetVal env (qnameOf d)
  | .ifaceB .. =>
    if isPtr then []
    else (ifaceAllOf env d).map (fun m => ⟨m, 1, false⟩)
  | .nonTypeB => []

/-- One interface requirement is met by one selection: same `Id()` (so an
unexported name only matches within its package) and identical signature. -/
def selMeets (s : Sel) (im : MethodDecl) : Bool :=
  methodId s.m == methodId im && sigMatch s.m.sig im.sig

/-- `types.Implements`: every interface method, embedded ones included,
has a matching method in the method set of the given form. -/
def implementsM (env : TEnv) (d : NamedDef) (isPtr : Bool)
    (ifm : List MethodDecl) : Bool :=
  ifm.all (fun im => (msetOfDef env d isPtr).any (fun s => selMeets s im))

/-- The four distinct `FindImplementations` failures. -/
inductive FindErr
  | pkgNotFound (p : String)
  | symbolNotFound (s p : String)
  | notAType (s : String)
  | notAnInterface (s : String)
deriving DecidableEq, Repr

/-- The body of the `FindImplementations` candidate loop for one indexed
type: skip interfaces, resolve the type's scope object, keep the stored
record when the value form or the pointer form implements. -/
def implKeep (E : ModelIndex) (ifm : List MethodDecl) (piPath : String)
    (ti : TypeInfoM) : Option TypeInfoM :=
  if ti.kind == .kiface then none
  else
    match scopeLookup E.defs piPath ti.name with
    | none => none
    | some d2 =>
      if implementsM E.defs d2 false ifm || implementsM E.defs d2 true ifm
      then some ti else none

/-- The `FindImplementations` candidates contributed by one indexed
package (skipped entirely when its resolved scope is absent). -/
def implSeg (E : ModelIndex) (ifm : List MethodDecl) (pi2 : PackageInfoM) :
    List TypeInfoM :=
  if E.typePkgPaths.contains pi2.importPath then
    pi2.types.filterMap (implKeep E ifm pi2.importPath)
  else []

/-- `Finder.FindImplementations`: resolve the interface in the retained
scopes, then test every indexed non-interface type, by value and by
pointer, returning the stored `symtab.TypeInfo` records of the satisfying
types. -/
def findImplementationsM (E : ModelIndex) (pkgPath ifaceName : String) :
    Except FindErr (List TypeInfoM) :=
  if !(E.typePkgPaths.contains pkgPath) then .error (.pkgNotFound pkgPath)
  else
    match scopeLookup E.defs pkgPath ifaceName with
    | none => .error (.symbolNotFound ifaceName pkgPath)
    | some d =>
      match d.body with
      | .nonTypeB => .error (.notAType ifaceName)
      | .structB .. => .error (.notAnInterface ifaceName)
      | .otherB _ => .error (.notAnInterface ifaceName)
      | .ifaceB ex em =>
        .ok (E.pkgInfos.flatMap
          (implSeg E (ifaceAll E.defs (E.defs.length + 1) ex em)))

/-! ## The `get_function` tool handler (`getFunctionHandler`). -/

/-- The distinct `get_function` failures, mirroring the four error
messages of the handler. -/
inductive GetFnErr
  | pkgNotFound (p : String)
  | typeNotFound (t p : String)
  | methodNotFound (m t p : String)
  | funcNotFound (n p : String)
deriving DecidableEq, Repr

/-- `getFunctionHandler`: a name containing a dot is cut at the first dot
into `TypeName.MethodName` and resolved against the first matching type's
stored method list; a bare name is resolved against the package's free
functions. -/
def getFunctionM (E : ModelIndex) (pkgPath name : String) :
    Except GetFnErr FuncInfoM :=
  match E.pkgInfos.find? (fun p => p.importPath == pkgPath) with
  | none => .error (.pkgNotFound pkgPath)
  | some pkg =>
    match cutDot name with
    | some (typeName, methodName) =>
      match pkg.types.find? (fun t => t.name == typeName) with
      | none => .error (.typeNotFound typeName pkgPath)
      | some t =>
        match t.methods.find? (fun m => m.name == methodName) with
        | none => .error (.methodNotFound methodName typeName pkgPath)
        | some m => .ok m
    | none =>
      match pkg.funcs.find? (fun fn => fn.name == name) with
      | none => .error (.funcNotFound name pkgPath)
      | some fn => .ok fn

/-! ## Doc-comment attribution (`Indexer.buildDocMap`, `Indexer.specDoc`). -/

/-- One spec of a grouped declaration. -/
inductive SpecM
  | typeSpec (name : String) (doc : Option String)
  | valueSpec (names : List String) (doc : Option String)
deriving DecidableEq, Repr

/-- One top-level declaration of a file. -/
inductive DeclM
  | funcDecl (name : String) (doc : Option String)
  | genDecl (doc : Option String) (specs : List SpecM)
deriving DecidableEq, Repr

/-- `Indexer.specDoc`: the spec's own doc comment wins; otherwise the group
doc is used only for single-spec declarations. -/
def specDocM (sd gd : Option String) (specCount : Nat) : String :=
  match sd with
  | some t => strTrim t
  | none =>
    match gd with
    | some t => if specCount == 1 then strTrim t else ""
    | none => ""

/-- `Indexer.buildDocMap`: doc text per declared name; empty attributions
are not stored. The position key of the source is modelled by the name. -/
def buildDocMapM (decls : List DeclM) : List (String × String) :=
  decls.flatMap (fun d =>
    match d with
    | .funcDecl n doc =>
      match doc with
      | some t => [(n, strTrim t)]
      | none => []
    | .genDecl gd specs =>
      specs.flatMap (fun s =>
        match s with
        | .typeSpec n sd =>
          let doc := specDocM sd gd specs.length
          if doc != "" then [(n, doc)] else []
        | .valueSpec ns sd =>
          let doc := specDocM sd gd specs.length
          if doc != "" then ns.map (fun n => (n, doc)) else []))

/-- Lookup in the doc map. -/
def docFor (docs : List (String × String)) (n : String) : Option String :=
  (docs.find? (fun p => p.1 == n)).map (fun p => p.2)

/-! ## Concrete witness data.

A compact rendition of `tests/testdata/greeter/greeter.go` (package path
shortened to `g`): interface `Greeter`, struct `English` with
pointer-receiver `Greet` and `BlankReceiver`, struct `Formal` with a
value-receiver `Greet`, struct `FormalEnglish` embedding `Formal`, struct
`Lockable` embedding `sync.Mutex`, the free function `New`, one const and
one var. -/

namespace Fix

def sigGreet : Sig :=
  { pnames := ["name"], ptypes := ["string"], rnames := [""],
    rtypes := ["string"], variadic := false }

def sigUnit : Sig :=
  { pnames := [], ptypes := [], rnames := [], rtypes := [], variadic := false }

def mGreetIface : MethodDecl :=
  { mname := "Greet", pkg := "g", recvName := "", recvT := "g.Greeter",
    ptrRecv := false, sig := sigGreet, doc := "dGreetI", body := "",
    file := "f.go", line := 9 }

def mGreetEnglish : MethodDecl :=
  { mname := "Greet", pkg := "g", recvName := "e", recvT := "g.English",
    ptrRecv := true, sig := sigGreet, doc := "dGreetE", body := "bE",
    file := "f.go", line := 19 }

def mBlankRecv : MethodDecl :=
  { mname := "BlankReceiver", pkg := "g", recvName := "_", recvT := "g.English",
    ptrRecv := true, sig := sigUnit, doc := "dBlank", body := "bB",
    file := "f.go", line := 58 }

def mGreetFormal : MethodDecl :=
  { mname := "Greet", pkg := "g", recvName := "f", recvT := "g.Formal",
    ptrRecv := false, sig := sigGreet, doc := "dGreetF", body := "bF",
    file := "f.go", line := 27 }

def mLock : MethodDecl :=
  { mname := "Lock", pkg := "sync", recvName := "m", recvT := "sync.Mutex",
    ptrRecv := true, sig := sigUnit, doc := "", body := "",
    file := "m.go", line := 1 }

def mUnlock : MethodDecl :=
  { mname := "Unlock", pkg := "sync", recvName := "m", recvT := "sync.Mutex",
    ptrRecv := true, sig := sigUnit, doc := "", body := "",
    file := "m.go", line := 2 }

def fNew : MethodDecl :=
  { mname := "New", pkg := "g", recvName := "", recvT := "", ptrRecv := false,
    sig := { pnames := ["p"], ptypes := ["string"], rnames := [""],
             rtypes := ["*g.English"], variadic := false },
    doc := "dNew", body := "bN", file := "f.go", line := 38 }

def dGreeter : NamedDef :=
  { pkg := "g", sname := "Greeter", body := .ifaceB [mGreetIface] [],
    doc := "dGreeter", file := "f.go", line := 7 }

def dEnglish : NamedDef :=
  { pkg := "g", sname := "English",
    body := .structB [⟨"Prefix", "string", "", "cPrefix"⟩] []
      [mGreetEnglish, mBlankRecv],
    doc := "dEnglish", file := "f.go", line := 13 }

def dFormal : NamedDef :=
  { pkg := "g", sname := "Formal", body := .structB [] [] [mGreetFormal],
    doc := "dFormal", file := "f.go", line := 24 }

def dFormalEnglish : NamedDef :=
  { pkg := "g", sname := "FormalEnglish",
    body := .structB [] [⟨"g.Formal", "Formal", false⟩] [],
    doc := "dFE", file := "f.go", line := 68 }

def dMutex : NamedDef :=
  { pkg := "sync", sname := "Mutex", body := .structB [] [] [mLock, mUnlock],
    doc := "", file := "m.go", line := 1 }

def dLockable : NamedDef :=
  { pkg := "g", sname := "Lockable",
    body := .structB [] [⟨"sync.Mutex", "Mutex", false⟩] [],
    doc := "dLock", file := "f.go", line := 62 }

def dNewObj : NamedDef :=
  { pkg := "g", sname := "New", body := .nonTypeB, doc := "",
    file := "f.go", line := 38 }

/-- The flattened resolved scopes of the fixture. -/
def fenv : TEnv :=
  [dGreeter, dEnglish, dFormal, dFormalEnglish, dMutex, dLockable, dNewObj]

def vDefaultPrefix : VarInfoM :=
  { name := "DefaultPrefix", package := "g", vtype := "string", isConst := true,
    doc := "dDP", location := ⟨"f.go", 32⟩ }

def vMaxLength : VarInfoM :=
  { name := "MaxLength", package := "g", vtype := "int", isConst := false,
    doc := "dML", location := ⟨"f.go", 35⟩ }

/-- The indexed greeter package, its types in the sorted order
`types.Scope.Names` yields. -/
def gPkg : PackageInfoM :=
  { importPath := "g", pname := "greeter", dir := "dir", files := ["f.go"],
    funcs := [funcInfoOf "g" fNew],
    types :=
      [typeInfoOf fenv dEnglish, typeInfoOf fenv dFormal,
       typeInfoOf fenv dFormalEnglish, typeInfoOf fenv dGreeter,
       typeInfoOf fenv dLockable],
    vars := [vDefaultPrefix, vMaxLength] }

/-- The whole fixture snapshot: one indexed package, two loaded scopes. -/
def fixIndex : ModelIndex :=
  { defs := fenv, typePkgPaths := ["g", "sync"], pkgInfos := [gPkg] }

/-! A two-package environment in which method-set order deviates from
bare-name order: type `z.T` declares the unexported method `a`
(`Id() = "z.a"`) and embeds `a.B`, which declares the unexported method `z`
(`Id() = "a.z"`); sorting by `Id()` puts `z` before `a`. -/

def mza : MethodDecl :=
  { mname := "a", pkg := "z", recvName := "t", recvT := "z.T", ptrRecv := false,
    sig := sigUnit, doc := "", body := "", file := "", line := 0 }

def maz : MethodDecl :=
  { mname := "z", pkg := "a", recvName := "b", recvT := "a.B", ptrRecv := false,
    sig := sigUnit, doc := "", body := "", file := "", line := 0 }

def dB6 : NamedDef :=
  { pkg := "a", sname := "B", body := .structB [] [] [maz], doc := "",
    file := "", line := 0 }

def dT6 : NamedDef :=
  { pkg := "z", sname := "T", body := .structB [] [⟨"a.B", "B", false⟩] [mza],
    doc := "", file := "", line := 0 }

def env6 : TEnv := [dT6, dB6]

end Fix

/-! ## Order lemmas for the lexicographic comparison. -/

theorem lexLtB_asymm : ∀ (a b : List Nat), lexLtB a b = true → lexLtB b a = false
  | [], [], h => by simp [lexLtB] at h
  | [], _ :: _, _ => by simp [lexLtB]
  | _ :: _, [], h => by simp [lexLtB] at h
  | a :: as, b :: bs, h => by
    simp only [lexLtB] at h ⊢
    by_cases h1 : a < b
    · have h2 : ¬ b < a := by omega
      simp [h1, h2]
    · by_cases h2 : b < a
      · simp [h1, h2] at h
      · simp only [h1, h2, if_false] at h ⊢
        exact lexLtB_asymm as bs h

theorem lexLtB_trans :
    ∀ (a b c : List Nat), lexLtB a b = true → lexLtB b c = true → lexLtB a c = true
  | [], [], _, h1, _ => by simp [lexLtB] at h1
  | [], _ :: _, [], _, h2 => by simp [lexLtB] at h2
  | [], _ :: _, _ :: _, _, _ => by simp [lexLtB]
  | _ :: _, [], _, h1, _ => by simp [lexLtB] at h1
  | _ :: _, _ :: _, [], _, h2 => by simp [lexLtB] at h2
  | a :: as, b :: bs, c :: cs, h1, h2 => by
    simp only [lexLtB] at h1 h2 ⊢
    by_cases hab : a < b
    · by_cases hbc : b < c
      · have : a < c := by omega
        simp [this]
      · by_cases hcb : c < b
        · simp [hbc, hcb] at h2
        · have hbceq : b = c := by omega
          have : a < c := by omega
          simp [this]
    · by_cases hba : b < a
      · simp [hab, hba] at h1
      · have habeq : a = b := by omega
        by_cases hbc : b < c
        · have : a < c := by omega
          simp [this]
        · by_cases hcb : c < b
          · simp [hbc, hcb] at h2
          · have : ¬ a < c := by omega
            have h2' : ¬ c < a := by omega
            simp only [hab, hba, if_false] at h1
            simp only [hbc, hcb, if_false] at h2
            simp only [this, h2', if_false]
            exact lexLtB_trans as bs cs h1 h2

theorem lexLtB_eq_of_not :
    ∀ (a b : List Nat), lexLtB a b = false → lexLtB b a = false → a = b
  | [], [], _, _ => rfl
  | [], _ :: _, h1, _ => by simp [lexLtB] at h1
  | _ :: _, [], _, h2 => by simp [lexLtB] at h2
  | a :: as, b :: bs, h1, h2 => by
    simp only [lexLtB] at h1 h2
    by_cases hab : a < b
    · simp [hab] at h1
    · by_cases hba : b < a
      · simp [hab, hba] at h1 h2
      · have : a = b := by omega
        simp only [hab, hba, if_false] at h1 h2
        rw [this, lexLtB_eq_of_not as bs h1 h2]

theorem lexLeB_total (a b : List Nat) : lexLeB a b = true ∨ lexLeB b a = true := by
  by_cases h : lexLtB b a = true
  · right
    simp [lexLeB, lexLtB_asymm b a h]
  · left
    simp only [lexLeB]
    simp [Bool.not_eq_true] at h
    simp [h]

theorem lexLeB_trans (a b c : List Nat) :
    lexLeB a b = true → lexLeB b c = true → lexLeB a c = true := by
  simp only [lexLeB, Bool.not_eq_true']
  intro hab hbc
  by_cases hca : lexLtB c a = true
  · by_cases hcb : lexLtB c b = true
    · rw [hcb] at hbc
      simp at hbc
    · by_cases hbc2 : lexLtB b c = true
      · have := lexLtB_trans b c a hbc2 hca
        rw [this] at hab
        simp at hab
      · simp only [Bool.not_eq_true] at hcb hbc2
        have hbceq : b = c := lexLtB_eq_of_not b c hbc2 hcb
        subst hbceq
        rw [hca] at hab
        simp at hab
  · simp only [Bool.not_eq_true] at hca
    exact hca

theorem chainLeB_of_sorted {α : Type _} (κ : α → List Nat) :
    ∀ l : List α, l.Sorted (fun a b => lexLeB (κ a) (κ b) = true) →
      chainLeB (l.map κ) = true
  | [], _ => rfl
  | [_], _ => rfl
  | a :: b :: t, h => by
    rw [List.sorted_cons] at h
    have h1 : lexLeB (κ a) (κ b) = true := h.1 b (by simp)
    have h2 : chainLeB ((b :: t).map κ) = true := chainLeB_of_sorted κ (b :: t) h.2
    simp only [List.map_cons, chainLeB, h1, Bool.true_and]
    simpa using h2

theorem sortById_sorted (key : α → MethodDecl) (l : List α) :
    (sortById key l).Sorted (fun a b => lexLeB (idKey (key a)) (idKey (key b)) = true) := by
  haveI : IsTotal α (fun a b => lexLeB (idKey (key a)) (idKey (key b)) = true) :=
    ⟨fun a b => lexLeB_total _ _⟩
  haveI : IsTrans α (fun a b => lexLeB (idKey (key a)) (idKey (key b)) = true) :=
    ⟨fun a b c => lexLeB_trans _ _ _⟩
  exact List.sorted_insertionSort _ l

theorem sortById_perm (key : α → MethodDecl) (l : List α) :
    (sortById key l).Perm l :=
  List.perm_insertionSort _ l

/-- The entry a selection contributes to a built methods list
(`Indexer.namedMethods` loop body). -/
def selEntry (pkgPath : String) (s : Sel) : FuncInfoM :=
  let fi := funcInfoOf pkgPath s.m
  if 1 < s.indexLen then { fi with isPromoted := true } else fi

theorem namedMethodsM_eq (env : TEnv) (pkgPath qn : String) :
    namedMethodsM env pkgPath qn =
      (sortById (fun s => s.m) (msetPtr env qn)).map (selEntry pkgPath) := rfl

/-! ## Claim theorems. -/

/-- C6, counterexample: the built methods list of the concrete type `z.T`,
which declares unexported `a` and embeds `a.B` with its unexported promoted
method `z`, is not ordered lexicographically by method name — `go/types`
orders method sets by the package-qualified `Id()`, which puts `a.z` before
`z.a`. -/
theorem c6_counterexample :
    sortedByName (typeInfoOf Fix.env6 Fix.dT6).methods = false := by decide

/-- C6, amended: for every indexed named type, the stored methods list is
the image of a selection list sorted lexicographically by the unique
method `Id()` (the bare name for exported methods, package-qualified for
unexported ones) — a deterministic order, which agrees with bare-name order
whenever no unexported methods from distinct packages are involved. -/
theorem c6_methods_sorted_by_id (env : TEnv) (d : NamedDef) :
    ∃ sels : List Sel,
      (typeInfoOf env d).methods = sels.map (selEntry d.pkg) ∧
      chainLeB (sels.map (fun s => idKey s.m)) = true := by
  have hsort : ∀ l : List Sel,
      chainLeB ((sortById (fun s : Sel => s.m) l).map (fun s : Sel => idKey s.m)) = true := by
    intro l
    exact chainLeB_of_sorted (fun s : Sel => idKey s.m) _
      (sortById_sorted (fun s : Sel => s.m) l)
  cases d with
  | mk pkg sname body doc file line =>
    cases body with
    | structB fields embeds methods =>
      refine ⟨sortById (fun s => s.m) (msetPtr env (qnameOf ⟨pkg, sname, .structB fields embeds methods, doc, file, line⟩)), ?_, hsort _⟩
      rfl
    | ifaceB ex em =>
      refine ⟨(sortById id ex).map (fun m => ⟨m, 1, false⟩), ?_, ?_⟩
      · simp only [typeInfoOf, interfaceMethodsM, List.map_map]
        rfl
      · rw [List.map_map]
        have : ((fun s => idKey s.m) ∘ (fun m => (⟨m, 1, false⟩ : Sel))) =
            fun m : MethodDecl => idKey m := rfl
        rw [this]
        exact chainLeB_of_sorted (fun m => idKey m) _ (sortById_sorted id ex)
    | otherB methods =>
      refine ⟨sortById (fun s => s.m) (msetPtr env (qnameOf ⟨pkg, sname, .otherB methods, doc, file, line⟩)), ?_, hsort _⟩
      rfl
    | nonTypeB => exact ⟨[], rfl, rfl⟩

/-- C1: on the greeter fixture, `FindImplementations` returns exactly the
stored `symtab.TypeInfo` records of the satisfying types, unchanged — the
record type `TypeInfoM` (mirroring `symtab.TypeInfo`) has no field, and the
query attaches no datum, indicating whether satisfaction was via value or
via pointer. `English` satisfies only by pointer and `Formal` only by
value, yet their result records are their plain index entries. -/
theorem c1_implementations_return_plain_records :
    findImplementationsM Fix.fixIndex "g" "Greeter" =
      .ok [typeInfoOf Fix.fenv Fix.dEnglish, typeInfoOf Fix.fenv Fix.dFormal,
        typeInfoOf Fix.fenv Fix.dFormalEnglish] ∧
    implementsM Fix.fenv Fix.dEnglish false [Fix.mGreetIface] = false ∧
    implementsM Fix.fenv Fix.dEnglish true [Fix.mGreetIface] = true ∧
    implementsM Fix.fenv Fix.dFormal false [Fix.mGreetIface] = true := by
  refine ⟨by decide, by decide, by decide, by decide⟩

/-- C2: an unrecognized match mode fails immediately with the
invalid-argument error, and the outcome is independent of the index
contents — no search is performed. -/
theorem c2_invalid_match_mode (E : ModelIndex) (name mode : String)
    (h1 : mode ≠ "exact") (h2 : mode ≠ "prefix") (h3 : mode ≠ "contains") :
    findSymbolChecked E name mode = .error (.invalidMatchMode mode) ∧
      ∀ E2 : ModelIndex, findSymbolChecked E2 name mode = findSymbolChecked E name mode := by
  have hm : (mode == "exact" || mode == "prefix" || mode == "contains") = false := by
    simp [h1, h2, h3]
  constructor
  · simp [findSymbolChecked, hm]
  · intro E2
    simp [findSymbolChecked, hm]

/-- C2, witness at the mode `"fuzzy"` of the repository's own test. -/
theorem c2_invalid_match_mode_witness :
    ("fuzzy" : String) ≠ "exact" ∧
      findSymbolChecked Fix.fixIndex "New" "fuzzy" =
        .error (.invalidMatchMode "fuzzy") :=
  ⟨by decide,
   (c2_invalid_match_mode Fix.fixIndex "New" "fuzzy" (by decide) (by decide)
     (by decide)).1⟩

/-- C8: the `get_function` lookup contract. A name containing a dot is cut
at the first dot into `TypeName.MethodName` and resolved against the stored
method list of the first type of that name (the stored list includes
promoted methods, which are looked up like any other entry); a bare name is
resolved against the package's free functions; the failure values of the
three lookup steps are pairwise distinct constructors naming the failed
step. -/
theorem c8_get_function_contract (E : ModelIndex) (p n : String) :
    ((cutDot n).isSome = n.data.any (fun c => c == '.')) ∧
    (E.pkgInfos.find? (fun pk => pk.importPath == p) = none →
      getFunctionM E p n = .error (.pkgNotFound p)) ∧
    (∀ pkg tn mn, E.pkgInfos.find? (fun pk => pk.importPath == p) = some pkg →
      cutDot n = some (tn, mn) →
      pkg.types.find? (fun t => t.name == tn) = none →
      getFunctionM E p n = .error (.typeNotFound tn p)) ∧
    (∀ pkg tn mn t m, E.pkgInfos.find? (fun pk => pk.importPath == p) = some pkg →
      cutDot n = some (tn, mn) →
      pkg.types.find? (fun t2 => t2.name == tn) = some t →
      t.methods.find? (fun m2 => m2.name == mn) = some m →
      getFunctionM E p n = .ok m) ∧
    (∀ pkg tn mn t, E.pkgInfos.find? (fun pk => pk.importPath == p) = some pkg →
      cutDot n = some (tn, mn) →
      pkg.types.find? (fun t2 => t2.name == tn) = some t →
      t.methods.find? (fun m2 => m2.name == mn) = none →
      getFunctionM E p n = .error (.methodNotFound mn tn p)) ∧
    (∀ pkg fn, E.pkgInfos.find? (fun pk => pk.importPath == p) = some pkg →
      cutDot n = none →
      pkg.funcs.find? (fun f => f.name == n) = some fn →
      getFunctionM E p n = .ok fn) ∧
    (∀ pkg, E.pkgInfos.find? (fun pk => pk.importPath == p) = some pkg →
      cutDot n = none →
      pkg.funcs.find? (fun f => f.name == n) = none →
      getFunctionM E p n = .error (.funcNotFound n p)) ∧
    (∀ t1 m1, GetFnErr.pkgNotFound p ≠ GetFnErr.typeNotFound t1 p ∧
      GetFnErr.pkgNotFound p ≠ GetFnErr.methodNotFound m1 t1 p ∧
      GetFnErr.pkgNotFound p ≠ GetFnErr.funcNotFound n p ∧
      GetFnErr.typeNotFound t1 p ≠ GetFnErr.methodNotFound m1 t1 p ∧
      GetFnErr.typeNotFound t1 p ≠ GetFnErr.funcNotFound n p ∧
      GetFnErr.methodNotFound m1 t1 p ≠ GetFnErr.funcNotFound n p) := by
  refine ⟨?_, ?_, ?_, ?_, ?_, ?_, ?_, ?_⟩
  · -- strings.Cut finds a separator exactly when the name contains a dot
    have step : ∀ (c : Char) (cs : List Char),
        (cutDotB (c :: cs)).isSome = ((c == '.') || (cutDotB cs).isSome) := by
      intro c cs
      by_cases hc : (c == '.') = true
      · simp [cutDotB, hc]
      · have hc2 : (c == '.') = false := by simpa using hc
        simp only [cutDotB, hc2, if_false, Bool.false_or]
        cases hcb : cutDotB cs with
        | none => simp
        | some pr => simp
    have main : ∀ l : List Char, (cutDotB l).isSome = l.any (fun c => c == '.') := by
      intro l
      induction l with
      | nil => rfl
      | cons c cs ih => rw [step, ih, List.any_cons]
    simp only [cutDot]
    cases hcb : cutDotB n.data with
    | none => have := main n.data; rw [hcb] at this; simpa using this
    | some pr => have := main n.data; rw [hcb] at this; simpa using this
  · intro h
    simp [getFunctionM, h]
  · intro pkg tn mn h1 h2 h3
    simp [getFunctionM, h1, h2, h3]
  · intro pkg tn mn t m h1 h2 h3 h4
    simp [getFunctionM, h1, h2, h3, h4]
  · intro pkg tn mn t h1 h2 h3 h4
    simp [getFunctionM, h1, h2, h3, h4]
  · intro pkg fn h1 h2 h3
    simp [getFunctionM, h1, h2, h3]
  · intro pkg h1 h2 h3
    simp [getFunctionM, h1, h2, h3]
  · intro t1 m1
    refine ⟨?_, ?_, ?_, ?_, ?_, ?_⟩ <;> intro h <;> cases h

/-! C7: the exact-match contract of `FindSymbol`. The candidate enumeration
below follows the spec's words — every indexed package's free functions,
named types, each type's methods, and package-level vars/consts, the type
declaration and each of its methods independent candidates — and the
theorem shows the scan returns exactly the candidates whose bare name
equals the query. -/

/-- The candidate reference of one free function. -/
def candFuncRefs (pkg : PackageInfoM) : List SymbolRefM :=
  pkg.funcs.map (fun f =>
    { name := f.name, package := pkg.importPath, kind := .kfunc,
      receiver := "", signature := f.signature, location := f.location })

/-- The candidate references of one package's types: each type declaration
and each of its stored methods. -/
def candTypeRefs (pkg : PackageInfoM) : List SymbolRefM :=
  pkg.types.flatMap (fun t =>
    { name := t.name, package := pkg.importPath, kind := .ktype,
      receiver := "", signature := "", location := t.location } ::
    t.methods.map (fun m =>
      { name := m.name, package := pkg.importPath, kind := .kmethod,
        receiver := m.receiver, signature := m.signature, location := m.location }))

/-- The candidate references of one package's vars and consts. -/
def candVarRefs (pkg : PackageInfoM) : List SymbolRefM :=
  pkg.vars.map (fun v =>
    { name := v.name, package := pkg.importPath,
      kind := if v.isConst then SymbolKindM.kconst else SymbolKindM.kvar,
      receiver := "", signature := "", location := v.location })

/-- Every candidate symbol reference of the whole index. -/
def allCandidates (E : ModelIndex) : List SymbolRefM :=
  E.pkgInfos.flatMap (fun pkg =>
    candFuncRefs pkg ++ candTypeRefs pkg ++ candVarRefs pkg)

theorem matchesQuery_exact (s q : String) : matchesQueryM s q "exact" = (s == q) := rfl

theorem filter_flatMapL {α β : Type _} (l : List α) (g : α → List β) (p : β → Bool) :
    (l.flatMap g).filter p = l.flatMap (fun a => (g a).filter p) := by
  induction l with
  | nil => rfl
  | cons a t ih => simp only [List.flatMap_cons, List.filter_append, ih]

/-- C7: in exact match mode, `FindSymbol` returns exactly the candidate
references whose bare declared name equals the query, and no others. -/
theorem c7_find_symbol_exact (E : ModelIndex) (q : String) :
    findSymbolChecked E q "exact" =
      .ok ((allCandidates E).filter (fun r => r.name == q)) := by
  show Except.ok (findSymbolScan E q "exact") = _
  congr 1
  simp only [findSymbolScan, allCandidates, filter_flatMapL]
  have hbody : ∀ pkg : PackageInfoM,
      refsFromFuncsM pkg q "exact" ++ refsFromTypesM pkg q "exact" ++
        refsFromVarsM pkg q "exact" =
      (candFuncRefs pkg ++ candTypeRefs pkg ++ candVarRefs pkg).filter
        (fun r => r.name == q) := by
    intro pkg
    simp only [List.filter_append]
    have hf : refsFromFuncsM pkg q "exact" =
        (candFuncRefs pkg).filter (fun r => r.name == q) := by
      simp only [refsFromFuncsM, candFuncRefs, List.filter_map]
      rfl
    have hv : refsFromVarsM pkg q "exact" =
        (candVarRefs pkg).filter (fun r => r.name == q) := by
      simp only [refsFromVarsM, candVarRefs, List.filter_map]
      rfl
    have ht : refsFromTypesM pkg q "exact" =
        (candTypeRefs pkg).filter (fun r => r.name == q) := by
      simp only [refsFromTypesM, candTypeRefs, filter_flatMapL]
      refine congrArg _ (funext fun t => ?_)
      rw [List.filter_cons]
      by_cases hq : (t.name == q) = true
      · simp only [matchesQuery_exact, hq, if_true, if_pos]
        simp only [List.filter_map]
        rfl
      · have hq2 : (t.name == q) = false := by simpa using hq
        simp only [matchesQuery_exact, hq2, if_false, Bool.false_eq_true, if_neg,
          List.nil_append]
        simp only [List.filter_map]
        rfl
    rw [hf, ht, hv]
  exact congrArg _ (funext hbody)

/-- C8, witness: the method lookup `English.Greet` on the fixture resolves
through the dotted path, and every hypothesis of the contract is discharged
at this concrete input. -/
theorem c8_get_function_contract_witness :
    cutDot "English.Greet" = some ("English", "Greet") ∧
      getFunctionM Fix.fixIndex "g" "English.Greet" =
        .ok (funcInfoOf "g" Fix.mGreetEnglish) :=
  ⟨by decide,
   (c8_get_function_contract Fix.fixIndex "g" "English.Greet").2.2.2.1
     Fix.gPkg "English" "Greet" (typeInfoOf Fix.fenv Fix.dEnglish)
     (funcInfoOf "g" Fix.mGreetEnglish) (by decide) (by decide) (by decide)
     (by decide)⟩

/-! C9: doc attribution for grouped declarations. -/

/-- The names one spec declares. -/
def specNamesOf : SpecM → List String
  | .typeSpec n _ => [n]
  | .valueSpec ns _ => ns

/-- The individual doc comment of one spec. -/
def specDocOf : SpecM → Option String
  | .typeSpec _ d => d
  | .valueSpec _ d => d

/-- All names a grouped declaration declares, in order. -/
def specNames (specs : List SpecM) : List String := specs.flatMap specNamesOf

/-- The doc-map entries one spec contributes inside a group of `k` specs. -/
def segFor (gd : Option String) (k : Nat) (s : SpecM) : List (String × String) :=
  match s with
  | .typeSpec n sd =>
    let doc := specDocM sd gd k
    if doc != "" then [(n, doc)] else []
  | .valueSpec ns sd =>
    let doc := specDocM sd gd k
    if doc != "" then ns.map (fun n => (n, doc)) else []

theorem buildDocMap_single (gd : Option String) (specs : List SpecM) :
    buildDocMapM [.genDecl gd specs] = specs.flatMap (segFor gd specs.length) := by
  simp only [buildDocMapM, List.flatMap_cons, List.flatMap_nil, List.append_nil]
  rfl

theorem segFor_keys (gd : Option String) (k : Nat) (s : SpecM) :
    ∀ p ∈ segFor gd k s, p.1 ∈ specNamesOf s := by
  cases s with
  | typeSpec n sd =>
    intro p hp
    simp only [segFor] at hp
    split at hp
    · simp at hp
      simp [hp, specNamesOf]
    · simp at hp
  | valueSpec ns sd =>
    intro p hp
    simp only [segFor] at hp
    split at hp
    · rw [List.mem_map] at hp
      obtain ⟨x, hx, hpx⟩ := hp
      simp [← hpx, specNamesOf, hx]
    · simp at hp

theorem docFor_cons_pos (a : String × String) (l : List (String × String))
    (n : String) (h : (a.1 == n) = true) : docFor (a :: l) n = some a.2 := by
  simp only [docFor, List.find?_cons, h]
  rfl

theorem docFor_cons_neg (a : String × String) (l : List (String × String))
    (n : String) (h : (a.1 == n) = false) : docFor (a :: l) n = docFor l n := by
  simp only [docFor, List.find?_cons, h]

theorem find?_appendL {α : Type _} (l1 l2 : List α) (p : α → Bool) :
    (l1 ++ l2).find? p =
      match l1.find? p with
      | some x => some x
      | none => l2.find? p := by
  induction l1 with
  | nil => rfl
  | cons a t ih =>
    by_cases ha : p a = true
    · rw [List.cons_append, List.find?_cons_of_pos _ ha, List.find?_cons_of_pos _ ha]
    · rw [List.cons_append, List.find?_cons_of_neg _ ha, List.find?_cons_of_neg _ ha, ih]

theorem docFor_append (l1 l2 : List (String × String)) (n : String) :
    docFor (l1 ++ l2) n =
      match docFor l1 n with
      | some v => some v
      | none => docFor l2 n := by
  simp only [docFor, find?_appendL]
  cases l1.find? (fun p => p.1 == n) <;> simp

theorem docFor_none_of (l : List (String × String)) (n : String)
    (h : ∀ p ∈ l, p.1 ≠ n) : docFor l n = none := by
  have hf : l.find? (fun p => p.1 == n) = none := by
    rw [List.find?_eq_none]
    intro p hp
    simpa using h p hp
  simp [docFor, hf]

theorem docFor_flat_none (gd : Option String) (k : Nat) (specs : List SpecM)
    (n : String) (h : n ∉ specNames specs) :
    docFor (specs.flatMap (segFor gd k)) n = none := by
  apply docFor_none_of
  intro p hp
  rw [List.mem_flatMap] at hp
  obtain ⟨s, hs, hps⟩ := hp
  intro hpn
  apply h
  rw [specNames, List.mem_flatMap]
  exact ⟨s, hs, hpn ▸ segFor_keys gd k s p hps⟩

theorem docFor_map_const (ns : List String) (doc : String) (n : String)
    (h : n ∈ ns) : docFor (ns.map (fun x => (x, doc))) n = some doc := by
  induction ns with
  | nil => cases h
  | cons a t ih =>
    rw [List.map_cons]
    by_cases ha : (a == n) = true
    · exact docFor_cons_pos (a, doc) _ n ha
    · have ha2 : (a == n) = false := by simpa using ha
      rw [docFor_cons_neg (a, doc) _ n ha2]
      have hmem : n ∈ t := by
        rcases List.mem_cons.mp h with rfl | hmem
        · simp at ha2
        · exact hmem
      exact ih hmem

theorem docFor_seg_self (gd : Option String) (k : Nat) (s : SpecM) (n : String)
    (hn : n ∈ specNamesOf s) :
    docFor (segFor gd k s) n =
      (if specDocM (specDocOf s) gd k == "" then none
       else some (specDocM (specDocOf s) gd k)) := by
  cases s with
  | typeSpec n0 sd =>
    have : n = n0 := by simpa [specNamesOf] using hn
    subst this
    by_cases hd : specDocM sd gd k = ""
    · simp [segFor, specDocOf, hd, docFor]
    · have h1 : (specDocM sd gd k != "") = true := by simp [hd]
      have h2 : (specDocM sd gd k == "") = false := by simp [hd]
      simp only [segFor, specDocOf, h1, h2, if_true, Bool.false_eq_true, if_false]
      exact docFor_cons_pos _ _ _ (by simp)
  | valueSpec ns sd =>
    simp only [specNamesOf] at hn
    by_cases hd : specDocM sd gd k = ""
    · simp [segFor, specDocOf, hd, docFor]
    · have h1 : (specDocM sd gd k != "") = true := by simp [hd]
      have h2 : (specDocM sd gd k == "") = false := by simp [hd]
      simp only [segFor, specDocOf, h1, h2, if_true, Bool.false_eq_true, if_false]
      exact docFor_map_const ns _ n hn

theorem docFor_flat (gd : Option String) (k : Nat) :
    ∀ (specs : List SpecM) (s : SpecM) (n : String), s ∈ specs →
      n ∈ specNamesOf s → (specNames specs).Nodup →
      docFor (specs.flatMap (segFor gd k)) n =
        (if specDocM (specDocOf s) gd k == "" then none
         else some (specDocM (specDocOf s) gd k)) := by
  intro specs
  induction specs with
  | nil => intro s n hmem; cases hmem
  | cons hd tl ih =>
    intro s n hmem hn huniq
    have hu2 := List.nodup_append.mp (by simpa [specNames] using huniq)
    rw [List.flatMap_cons, docFor_append]
    rcases List.mem_cons.mp hmem with rfl | hmemtl
    · rw [docFor_seg_self gd k s n hn]
      by_cases hd2 : (specDocM (specDocOf s) gd k == "") = true
      · simp only [hd2, if_true]
        have hnin : n ∉ specNames tl := fun hc => hu2.2.2 hn hc
        rw [docFor_flat_none gd k tl n hnin]
      · simp [hd2]
    · have hnin : n ∈ specNames tl := by
        rw [specNames, List.mem_flatMap]
        exact ⟨s, hmemtl, hn⟩
      have hnothd : ∀ p ∈ segFor gd k hd, p.1 ≠ n := by
        intro p hp hpn
        exact hu2.2.2 (hpn ▸ segFor_keys gd k hd p hp) hnin
      rw [docFor_none_of _ _ hnothd]
      exact ih s n hmemtl hn hu2.2.1

/-- C9: for a grouped declaration, the doc attributed to a declared name is
its own trimmed individual comment when one is present; otherwise the
group comment is attributed exactly when the group holds a single spec; a
name in a multi-spec group without its own comment gets no doc. Empty
attributions are not stored. -/
theorem c9_group_doc_attribution (gd : Option String) (specs : List SpecM)
    (s : SpecM) (n : String) (hmem : s ∈ specs) (hn : n ∈ specNamesOf s)
    (huniq : (specNames specs).Nodup) :
    (docFor (buildDocMapM [.genDecl gd specs]) n =
      (if specDocM (specDocOf s) gd specs.length == "" then none
       else some (specDocM (specDocOf s) gd specs.length))) ∧
    (∀ t, specDocOf s = some t →
      specDocM (specDocOf s) gd specs.length = strTrim t) ∧
    (∀ t, specDocOf s = none → gd = some t → specs.length = 1 →
      specDocM (specDocOf s) gd specs.length = strTrim t) ∧
    (specDocOf s = none → specs.length ≠ 1 →
      specDocM (specDocOf s) gd specs.length = "") := by
  refine ⟨?_, ?_, ?_, ?_⟩
  · rw [buildDocMap_single]
    exact docFor_flat gd specs.length specs s n hmem hn huniq
  · intro t ht
    simp [specDocM, ht]
  · intro t hsd hgd hlen
    simp [specDocM, hsd, hgd, hlen]
  · intro hsd hlen
    cases hgd : gd with
    | none => simp [specDocM, hsd]
    | some t =>
      have : (specs.length == 1) = false := by simpa using hlen
      simp [specDocM, hsd, this]

/-- C9, witness: a two-spec group with a group comment — the spec with its
own comment gets it trimmed, the spec without one gets nothing despite the
group comment. -/
theorem c9_group_doc_attribution_witness :
    (SpecM.valueSpec ["B", "C"] (some " own ")) ∈
        ([SpecM.typeSpec "A" none, SpecM.valueSpec ["B", "C"] (some " own ")]) ∧
      docFor (buildDocMapM [.genDecl (some "grp")
          [SpecM.typeSpec "A" none, SpecM.valueSpec ["B", "C"] (some " own ")]]) "B" =
        some "own" ∧
      docFor (buildDocMapM [.genDecl (some "grp")
          [SpecM.typeSpec "A" none, SpecM.valueSpec ["B", "C"] (some " own ")]]) "A" =
        none := by
  refine ⟨by decide, ?_, ?_⟩
  · have h := (c9_group_doc_attribution (some "grp")
      [SpecM.typeSpec "A" none, SpecM.valueSpec ["B", "C"] (some " own ")]
      (SpecM.valueSpec ["B", "C"] (some " own ")) "B" (by decide) (by decide)
      (by decide)).1
    rw [h]
    decide
  · have h := (c9_group_doc_attribution (some "grp")
      [SpecM.typeSpec "A" none, SpecM.valueSpec ["B", "C"] (some " own ")]
      (SpecM.typeSpec "A" none) "A" (by decide) (by decide) (by decide)).1
    rw [h]
    decide

/-! C3: the membership characterization of `FindImplementations`. -/

theorem msetVal_subset (env : TEnv) (qn : String) :
    ∀ s ∈ msetVal env qn, s ∈ msetPtr env qn := by
  intro s hs
  exact List.mem_of_mem_filter hs

theorem impl_or_iff (env : TEnv) (d2 : NamedDef) (ifm : List MethodDecl) :
    ((implementsM env d2 false ifm || implementsM env d2 true ifm) = true) ↔
      ∀ im ∈ ifm,
        (∃ s ∈ msetOfDef env d2 false, selMeets s im = true) ∨
        (∃ s ∈ msetOfDef env d2 true, selMeets s im = true) := by
  simp only [implementsM, Bool.or_eq_true, List.all_eq_true, List.any_eq_true]
  constructor
  · rintro (h | h) im him
    · exact Or.inl (h im him)
    · exact Or.inr (h im him)
  · intro h
    rcases d2 with ⟨pkg2, sn2, body2, doc2, file2, line2⟩
    cases body2 with
    | structB fields embeds methods =>
      right
      intro im him
      rcases h im him with ⟨s, hs, hm⟩ | hgood
      · exact ⟨s, msetVal_subset _ _ s hs, hm⟩
      · exact hgood
    | ifaceB ex2 em2 =>
      left
      intro im him
      rcases h im him with hgood | ⟨s, hs, _⟩
      · exact hgood
      · simp [msetOfDef] at hs
    | otherB methods =>
      right
      intro im him
      rcases h im him with ⟨s, hs, hm⟩ | hgood
      · exact ⟨s, msetVal_subset _ _ s hs, hm⟩
      · exact hgood
    | nonTypeB =>
      left
      intro im him
      rcases h im him with ⟨s, hs, _⟩ | ⟨s, hs, _⟩ <;> simp [msetOfDef] at hs

theorem nodup_map_injOn {α β : Type _} (f : α → β) (l : List α)
    (h : (l.map f).Nodup) :
    ∀ a ∈ l, ∀ b ∈ l, f a = f b → a = b := by
  induction l with
  | nil => intro a ha; cases ha
  | cons x t ih =>
    simp only [List.map_cons, List.nodup_cons] at h
    intro a ha b hb hfab
    rcases List.mem_cons.mp ha with rfl | ha2
    · rcases List.mem_cons.mp hb with rfl | hb2
      · rfl
      · exact absurd (hfab ▸ List.mem_map_of_mem f hb2) h.1
    · rcases List.mem_cons.mp hb with rfl | hb2
      · exact absurd (hfab ▸ List.mem_map_of_mem f ha2) h.1
      · exact ih h.2 a ha2 b hb2 hfab

/-- C3: under a well-formed snapshot (indexed records carry their own
package path, package paths are unique, the candidate type resolves in its
package's retained scope), `FindImplementations` succeeds and its result
contains an indexed concrete (non-interface) type exactly when every
method of the interface — embedded interfaces flattened transitively by
`ifaceAll` — has a matching method (same `Id()`, identical signature
including parameter order and variadicity) reachable on the value form or
on the pointer form of the type. -/
theorem c3_find_implementations_iff
    (E : ModelIndex) (pkgPath ifaceName : String)
    (ipkg isn idoc ifile : String) (iline : Nat)
    (ex : List MethodDecl) (em : List String)
    (hP : E.typePkgPaths.contains pkgPath = true)
    (hI : scopeLookup E.defs pkgPath ifaceName =
      some ⟨ipkg, isn, .ifaceB ex em, idoc, ifile, iline⟩)
    (pi : PackageInfoM) (hpi : pi ∈ E.pkgInfos)
    (hpiT : E.typePkgPaths.contains pi.importPath = true)
    (ti : TypeInfoM) (hti : ti ∈ pi.types)
    (hkind : (ti.kind == TypeKindM.kiface) = false)
    (d2 : NamedDef) (hd2 : scopeLookup E.defs pi.importPath ti.name = some d2)
    (hwf1 : (E.pkgInfos.map (fun p => p.importPath)).Nodup)
    (hwf2 : ∀ pj ∈ E.pkgInfos, ∀ t ∈ pj.types, t.package = pj.importPath) :
    ∃ L, findImplementationsM E pkgPath ifaceName = Except.ok L ∧
      (ti ∈ L ↔ ∀ im ∈ ifaceAll E.defs (E.defs.length + 1) ex em,
        (∃ s ∈ msetOfDef E.defs d2 false, selMeets s im = true) ∨
        (∃ s ∈ msetOfDef E.defs d2 true, selMeets s im = true)) := by
  have hok : findImplementationsM E pkgPath ifaceName =
      Except.ok (E.pkgInfos.flatMap
        (implSeg E (ifaceAll E.defs (E.defs.length + 1) ex em))) := by
    have hnot : (!(E.typePkgPaths.contains pkgPath)) = false := by
      rw [hP]
      rfl
    simp only [findImplementationsM, hnot, Bool.false_eq_true, if_false, hI]
  refine ⟨_, hok, ?_⟩
  rw [← impl_or_iff E.defs d2 (ifaceAll E.defs (E.defs.length + 1) ex em)]
  set ifm := ifaceAll E.defs (E.defs.length + 1) ex em with hifm
  constructor
  · intro hmem
    rw [List.mem_flatMap] at hmem
    obtain ⟨pj, hpj, hseg⟩ := hmem
    rw [implSeg] at hseg
    by_cases hc : E.typePkgPaths.contains pj.importPath = true
    · rw [if_pos hc] at hseg
      rw [List.mem_filterMap] at hseg
      obtain ⟨ti2, hti2, hkeep⟩ := hseg
      -- the kept record is the input record, under a true condition
      have hsame : ti2 = ti ∧
          (implementsM E.defs d2 false ifm || implementsM E.defs d2 true ifm) = true := by
        rw [implKeep] at hkeep
        by_cases hk2 : (ti2.kind == TypeKindM.kiface) = true
        · rw [if_pos hk2] at hkeep
          cases hkeep
        · rw [if_neg hk2] at hkeep
          cases hlk : scopeLookup E.defs pj.importPath ti2.name with
          | none =>
            simp only [hlk] at hkeep
            cases hkeep
          | some d3 =>
            simp only [hlk] at hkeep
            by_cases hcond :
                (implementsM E.defs d3 false ifm || implementsM E.defs d3 true ifm) = true
            · rw [if_pos hcond] at hkeep
              have hti2ti : ti2 = ti := by
                cases hkeep
                rfl
              subst hti2ti
              -- pj and pi carry the same import path, hence are equal
              have hpp : pj.importPath = pi.importPath := by
                have h1 := hwf2 pj hpj ti2 hti2
                have h2 := hwf2 pi hpi ti2 hti
                rw [← h1, ← h2]
              have hpjpi : pj = pi :=
                nodup_map_injOn _ _ hwf1 pj hpj pi hpi hpp
              subst hpjpi
              rw [hd2] at hlk
              cases hlk
              exact ⟨rfl, hcond⟩
            · rw [if_neg hcond] at hkeep
              cases hkeep
      exact hsame.2
    · rw [if_neg hc] at hseg
      cases hseg
  · intro hcond
    rw [List.mem_flatMap]
    refine ⟨pi, hpi, ?_⟩
    rw [implSeg, if_pos hpiT, List.mem_filterMap]
    refine ⟨ti, hti, ?_⟩
    rw [implKeep, if_neg (by simp [hkind])]
    simp only [hd2]
    rw [if_pos hcond]

/-- C3, witness: `Formal` satisfies `Greeter` on the fixture; every
hypothesis of the characterization is discharged concretely and the
right-hand side holds through the value form. -/
theorem c3_find_implementations_iff_witness :
    scopeLookup Fix.fenv "g" "Greeter" =
        some ⟨"g", "Greeter", .ifaceB [Fix.mGreetIface] [], "dGreeter", "f.go", 7⟩ ∧
      ∃ L, findImplementationsM Fix.fixIndex "g" "Greeter" = Except.ok L ∧
        (typeInfoOf Fix.fenv Fix.dFormal ∈ L ↔
          ∀ im ∈ ifaceAll Fix.fenv (Fix.fenv.length + 1) [Fix.mGreetIface] [],
            (∃ s ∈ msetOfDef Fix.fenv Fix.dFormal false, selMeets s im = true) ∨
            (∃ s ∈ msetOfDef Fix.fenv Fix.dFormal true, selMeets s im = true)) :=
  ⟨by decide,
   c3_find_implementations_iff Fix.fixIndex "g" "Greeter" "g" "Greeter" "dGreeter"
     "f.go" 7 [Fix.mGreetIface] [] (by decide) (by decide) Fix.gPkg (by decide)
     (by decide) (typeInfoOf Fix.fenv Fix.dFormal) (by decide) (by decide)
     Fix.dFormal (by decide) (by decide) (by decide)⟩

/-! C4 and C5: structural lemmas about the method-set walk. -/

/-- The keys an accumulated set binds. -/
def keysOf (b : Base) : List String := b.map Prod.fst

theorem baseHas_iff (b : Base) (k : String) :
    baseHas b k = true ↔ k ∈ keysOf b := by
  simp only [baseHas, List.any_eq_true, keysOf, List.mem_map]
  constructor
  · rintro ⟨e, he, hk⟩
    exact ⟨e, he, by simpa using hk⟩
  · rintro ⟨e, he, hk⟩
    exact ⟨e, he, by simp [hk]⟩

theorem keysOf_mergeDepth (base : Base) (ms : List MCand)
    (fs : List (String × Bool)) :
    keysOf (mergeDepth base ms fs) =
      keysOf base ++ (depthKeys ms fs).filter (fun k => !(baseHas base k)) := by
  simp only [mergeDepth, keysOf, List.map_append, List.map_map]
  rw [show (Prod.fst ∘ fun k : String => (k, depthEntry ms fs k)) = id from rfl,
    List.map_id]

theorem keysOf_mergeDepth_nodup (base : Base) (ms : List MCand)
    (fs : List (String × Bool)) (h : (keysOf base).Nodup) :
    (keysOf (mergeDepth base ms fs)).Nodup := by
  rw [keysOf_mergeDepth, List.nodup_append]
  refine ⟨h, (List.nodup_dedup _).filter _, ?_⟩
  intro k hk1 hk2
  rw [List.mem_filter] at hk2
  have := hk2.2
  rw [Bool.not_eq_true', ← Bool.not_eq_true] at this
  exact this ((baseHas_iff base k).mpr hk1)

theorem mem_mergeDepth_left (base : Base) (ms : List MCand)
    (fs : List (String × Bool)) : ∀ e ∈ base, e ∈ mergeDepth base ms fs := by
  intro e he
  exact List.mem_append_left _ he

theorem depthEntry_some (ms : List MCand) (fs : List (String × Bool))
    (k : String) (sel : Sel) (h : depthEntry ms fs k = some sel) :
    ∃ c ∈ ms, c.mult = false ∧ methodId c.m = k ∧
      sel = ⟨c.m, c.ilen, c.ind⟩ := by
  rw [depthEntry] at h
  by_cases hf : fs.any (fun p => p.1 == k) = true
  · rw [if_pos hf] at h
    cases h
  · rw [if_neg hf] at h
    cases hfl : ms.filter (fun c => methodId c.m == k) with
    | nil =>
      simp only [hfl] at h
      cases h
    | cons c rest =>
      cases rest with
      | nil =>
        simp only [hfl] at h
        have hcmem : c ∈ ms.filter (fun c => methodId c.m == k) := by
          rw [hfl]
          simp
        have hc1 : c ∈ ms := List.mem_of_mem_filter hcmem
        have hc2 : (methodId c.m == k) = true := (List.mem_filter.mp hcmem).2
        by_cases hm : c.mult = true
        · rw [if_pos hm] at h
          cases h
        · rw [if_neg hm] at h
          cases h
          exact ⟨c, hc1, by simpa using hm, by simpa using hc2, rfl⟩
      | cons c2 rest2 =>
        simp only [hfl] at h
        cases h

theorem sels_mergeDepth (base : Base) (ms : List MCand)
    (fs : List (String × Bool)) :
    ∀ sel ∈ baseSels (mergeDepth base ms fs),
      sel ∈ baseSels base ∨
        ∃ c ∈ ms, c.mult = false ∧ sel = ⟨c.m, c.ilen, c.ind⟩ := by
  intro sel hsel
  rw [mergeDepth, baseSels, List.filterMap_append] at hsel
  rcases List.mem_append.mp hsel with hleft | hright
  · exact Or.inl hleft
  · right
    rw [List.mem_filterMap] at hright
    obtain ⟨⟨k, o⟩, hko, ho⟩ := hright
    rw [List.mem_map] at hko
    obtain ⟨k2, hk2, hpair⟩ := hko
    have : o = depthEntry ms fs k2 := by
      cases hpair
      rfl
    rw [this] at ho
    obtain ⟨c, hc, hcm, _, hsel2⟩ := depthEntry_some ms fs k2 sel ho
    exact ⟨c, hc, hcm, hsel2⟩

theorem filter_key_singleton {α β : Type _} [DecidableEq β] (κ : α → β) :
    ∀ (l : List α), (l.map κ).Nodup → ∀ m ∈ l,
      l.filter (fun x => κ x == κ m) = [m] := by
  intro l
  induction l with
  | nil => intro _ m hm; cases hm
  | cons x t ih =>
    intro hnd m hm
    simp only [List.map_cons, List.nodup_cons] at hnd
    rcases List.mem_cons.mp hm with rfl | hmt
    · rw [List.filter_cons, if_pos (by simp)]
      have : t.filter (fun x => κ x == κ m) = [] := by
        rw [List.filter_eq_nil_iff]
        intro a ha hka
        have hka2 : κ a = κ m := by simpa using hka
        exact hnd.1 (hka2 ▸ List.mem_map_of_mem κ ha)
      rw [this]
    · have hne : (κ x == κ m) = false := by
        have : κ x ≠ κ m := by
          intro heq
          exact hnd.1 (heq ▸ List.mem_map_of_mem κ hmt)
        simpa using this
      rw [List.filter_cons, if_neg (by simp [hne])]
      exact ih hnd.2 m hmt

theorem bfsLoop_succ_nil (env : TEnv) (n : Nat) (base : Base)
    (seen : List String) (frontier : List Front)
    (h : (consolidate frontier).filter (fun f => !(seen.contains f.qn)) = []) :
    bfsLoop env (n + 1) base seen frontier = base := by
  simp only [bfsLoop, h]

theorem bfsLoop_succ_cons (env : TEnv) (n : Nat) (base : Base)
    (seen : List String) (frontier : List Front) (f0 : Front) (rest : List Front)
    (h : (consolidate frontier).filter (fun f => !(seen.contains f.qn)) =
      f0 :: rest) :
    bfsLoop env (n + 1) base seen frontier =
      bfsLoop env n
        (mergeDepth base ((f0 :: rest).flatMap (fun f => (entryCands env f).1))
          ((f0 :: rest).flatMap (fun f => (entryCands env f).2.1)))
        (seen ++ (f0 :: rest).map (fun f => f.qn))
        ((f0 :: rest).flatMap (fun f => (entryCands env f).2.2)) := by
  simp only [bfsLoop, h]

theorem bfsLoop_mono (env : TEnv) :
    ∀ (fuel : Nat) (base : Base) (seen : List String) (frontier : List Front)
      (e : String × Option Sel),
      e ∈ base → e ∈ bfsLoop env fuel base seen frontier := by
  intro fuel
  induction fuel with
  | zero => intro base seen frontier e he; exact he
  | succ n ih =>
    intro base seen frontier e he
    cases hfr : (consolidate frontier).filter (fun f => !(seen.contains f.qn)) with
    | nil =>
      rw [bfsLoop_succ_nil env n base seen frontier hfr]
      exact he
    | cons f0 rest =>
      rw [bfsLoop_succ_cons env n base seen frontier f0 rest hfr]
      exact ih _ _ _ e (mem_mergeDepth_left _ _ _ e he)

theorem bfsLoop_keys_nodup (env : TEnv) :
    ∀ (fuel : Nat) (base : Base) (seen : List String) (frontier : List Front),
      (keysOf base).Nodup →
      (keysOf (bfsLoop env fuel base seen frontier)).Nodup := by
  intro fuel
  induction fuel with
  | zero => intro base seen frontier h; exact h
  | succ n ih =>
    intro base seen frontier h
    cases hfr : (consolidate frontier).filter (fun f => !(seen.contains f.qn)) with
    | nil =>
      rw [bfsLoop_succ_nil env n base seen frontier hfr]
      exact h
    | cons f0 rest =>
      rw [bfsLoop_succ_cons env n base seen frontier f0 rest hfr]
      exact ih _ _ _ (keysOf_mergeDepth_nodup _ _ _ h)

theorem mergeDepth_key_inv (base : Base) (ms : List MCand)
    (fs : List (String × Bool))
    (h : ∀ p ∈ base, ∀ sel : Sel, p.2 = some sel → methodId sel.m = p.1) :
    ∀ p ∈ mergeDepth base ms fs, ∀ sel : Sel, p.2 = some sel →
      methodId sel.m = p.1 := by
  intro p hp sel hsel
  rw [mergeDepth] at hp
  rcases List.mem_append.mp hp with hl | hr
  · exact h p hl sel hsel
  · rw [List.mem_map] at hr
    obtain ⟨k, _, hpair⟩ := hr
    have h2 : depthEntry ms fs k = some sel := by
      rw [← hpair] at hsel
      exact hsel
    obtain ⟨c, _, _, hck, hsel2⟩ := depthEntry_some ms fs k sel h2
    rw [hsel2, ← hpair]
    exact hck

theorem bfsLoop_key_inv (env : TEnv) :
    ∀ (fuel : Nat) (base : Base) (seen : List String) (frontier : List Front),
      (∀ p ∈ base, ∀ sel : Sel, p.2 = some sel → methodId sel.m = p.1) →
      ∀ p ∈ bfsLoop env fuel base seen frontier, ∀ sel : Sel,
        p.2 = some sel → methodId sel.m = p.1 := by
  intro fuel
  induction fuel with
  | zero => intro base seen frontier h; exact h
  | succ n ih =>
    intro base seen frontier h
    cases hfr : (consolidate frontier).filter (fun f => !(seen.contains f.qn)) with
    | nil =>
      rw [bfsLoop_succ_nil env n base seen frontier hfr]
      exact h
    | cons f0 rest =>
      rw [bfsLoop_succ_cons env n base seen frontier f0 rest hfr]
      exact ih _ _ _ (mergeDepth_key_inv _ _ _ h)

theorem consolidateGo_mem :
    ∀ (seenQ : List String) (l : List Front) (f' : Front),
      f' ∈ consolidateGo seenQ l →
      ∃ f ∈ l, f'.qn = f.qn ∧ f'.ilen = f.ilen ∧ f'.ind = f.ind := by
  intro seenQ l
  induction l generalizing seenQ with
  | nil => intro f' hf; cases hf
  | cons f fs ih =>
    intro f' hf
    rw [consolidateGo] at hf
    by_cases hc : seenQ.contains f.qn = true
    · rw [if_pos hc] at hf
      obtain ⟨g, hg, hprop⟩ := ih seenQ f' hf
      exact ⟨g, List.mem_cons_of_mem f hg, hprop⟩
    · rw [if_neg hc] at hf
      rcases List.mem_cons.mp hf with rfl | hf2
      · exact ⟨f, List.mem_cons_self f fs, rfl, rfl, rfl⟩
      · obtain ⟨g, hg, hprop⟩ := ih _ f' hf2
        exact ⟨g, List.mem_cons_of_mem f hg, hprop⟩

theorem entryCands_c_ilen (env : TEnv) (f : Front) :
    ∀ c ∈ (entryCands env f).1, c.ilen = f.ilen := by
  intro c hc
  rw [entryCands] at hc
  cases hl : envLookup env f.qn with
  | none => rw [hl] at hc; cases hc
  | some d =>
    rw [hl] at hc
    rcases d with ⟨pkg, sn, body, doc, file, line⟩
    cases body with
    | structB fields embeds methods =>
      simp only [List.mem_map] at hc
      obtain ⟨m, _, hm⟩ := hc
      rw [← hm]
    | ifaceB ex em =>
      simp only [List.mem_map] at hc
      obtain ⟨m, _, hm⟩ := hc
      rw [← hm]
    | otherB methods =>
      simp only [List.mem_map] at hc
      obtain ⟨m, _, hm⟩ := hc
      rw [← hm]
    | nonTypeB => cases hc

theorem entryCands_next_ilen (env : TEnv) (f : Front) :
    ∀ g ∈ (entryCands env f).2.2, g.ilen = f.ilen + 1 := by
  intro g hg
  rw [entryCands] at hg
  cases hl : envLookup env f.qn with
  | none => rw [hl] at hg; cases hg
  | some d =>
    rw [hl] at hg
    rcases d with ⟨pkg, sn, body, doc, file, line⟩
    cases body with
    | structB fields embeds methods =>
      simp only [List.mem_map] at hg
      obtain ⟨e, _, he⟩ := hg
      rw [← he]
    | ifaceB ex em => cases hg
    | otherB methods => cases hg
    | nonTypeB => cases hg

theorem bfsLoop_sels_ge (env : TEnv) :
    ∀ (fuel : Nat) (base : Base) (seen : List String) (frontier : List Front),
      (∀ f ∈ frontier, 2 ≤ f.ilen) →
      ∀ sel ∈ baseSels (bfsLoop env fuel base seen frontier),
        sel ∈ baseSels base ∨ 2 ≤ sel.indexLen := by
  intro fuel
  induction fuel with
  | zero => intro base seen frontier _ sel hsel; exact Or.inl hsel
  | succ n ih =>
    intro base seen frontier hf sel hsel
    cases hfr : (consolidate frontier).filter (fun f => !(seen.contains f.qn)) with
    | nil =>
      rw [bfsLoop_succ_nil env n base seen frontier hfr] at hsel
      exact Or.inl hsel
    | cons f0 rest =>
      rw [bfsLoop_succ_cons env n base seen frontier f0 rest hfr] at hsel
      have hfr2 : ∀ f ∈ f0 :: rest, 2 ≤ f.ilen := by
        intro f hfmem
        have h1 : f ∈ consolidate frontier := by
          have : f ∈ (consolidate frontier).filter
              (fun f => !(seen.contains f.qn)) := hfr ▸ hfmem
          exact List.mem_of_mem_filter this
        obtain ⟨g, hg, _, hilen, _⟩ := consolidateGo_mem [] frontier f h1
        rw [hilen]
        exact hf g hg
      have hnext : ∀ g ∈ (f0 :: rest).flatMap (fun f => (entryCands env f).2.2),
          2 ≤ g.ilen := by
        intro g hg
        rw [List.mem_flatMap] at hg
        obtain ⟨f, hfmem, hgc⟩ := hg
        rw [entryCands_next_ilen env f g hgc]
        have := hfr2 f hfmem
        omega
      rcases ih _ _ _ hnext sel hsel with hbase | hge
      · rcases sels_mergeDepth _ _ _ sel hbase with hb2 | ⟨c, hc, _, hselc⟩
        · exact Or.inl hb2
        · right
          rw [List.mem_flatMap] at hc
          obtain ⟨f, hfmem, hcf⟩ := hc
          have h1 : c.ilen = f.ilen := entryCands_c_ilen env f c hcf
          have h2 : 2 ≤ f.ilen := hfr2 f hfmem
          rw [hselc]
          simp only []
          omega
      · exact Or.inr hge

theorem computeBase_step (env : TEnv) (qn : String) :
    computeBase env qn =
      bfsLoop env (env.length + 1)
        (mergeDepth [] ((entryCands env ⟨qn, 1, false, false⟩).1 ++ [])
          ((entryCands env ⟨qn, 1, false, false⟩).2.1 ++ []))
        [qn] ((entryCands env ⟨qn, 1, false, false⟩).2.2 ++ []) := rfl

/-- The field keys of a struct at its own depth: named fields and the
implicit names of embedded fields, keyed by `Id()`. -/
def fieldKeysOf (pkg : String) (fields : List FieldM) (embeds : List EmbedM) :
    List String :=
  fields.map (fun fl => fieldId pkg fl.fname) ++
    embeds.map (fun e => fieldId pkg e.fieldName)

theorem entryCands_struct (env : TEnv) (qn pkg sn doc file : String)
    (line : Nat) (fields : List FieldM) (embeds : List EmbedM)
    (methods : List MethodDecl)
    (henv : envLookup env qn =
      some ⟨pkg, sn, .structB fields embeds methods, doc, file, line⟩)
    (ilen : Nat) (ind mult : Bool) :
    entryCands env ⟨qn, ilen, ind, mult⟩ =
      (methods.map (fun m => ⟨m, ilen, ind, mult⟩),
       fields.map (fun fl => (fieldId pkg fl.fname, mult)) ++
         embeds.map (fun e => (fieldId pkg e.fieldName, mult)),
       embeds.map (fun e => ⟨e.qn, ilen + 1, ind || e.isPtrE, mult⟩)) := by
  simp only [entryCands, henv]

theorem assoc_unique (l : Base) (h : (keysOf l).Nodup) :
    ∀ (k : String) (v v' : Option Sel), (k, v) ∈ l → (k, v') ∈ l → v = v' := by
  induction l with
  | nil => intro k v v' hv; cases hv
  | cons e t ih =>
    simp only [keysOf, List.map_cons, List.nodup_cons] at h
    intro k v v' hv hv'
    rcases List.mem_cons.mp hv with rfl | hvt
    · rcases List.mem_cons.mp hv' with he | hvt'
      · cases he
        rfl
      · exact absurd (List.mem_map_of_mem Prod.fst hvt') (by simpa using h.1)
    · rcases List.mem_cons.mp hv' with he | hvt'
      · cases he
        exact absurd (List.mem_map_of_mem Prod.fst hvt) (by simpa using h.1)
      · exact ih h.2 k v v' hvt hvt'

theorem depth0_pair (env : TEnv) (qn pkg sn doc file : String) (line : Nat)
    (fields : List FieldM) (embeds : List EmbedM) (methods : List MethodDecl)
    (henv : envLookup env qn =
      some ⟨pkg, sn, .structB fields embeds methods, doc, file, line⟩)
    (hid : (methods.map methodId).Nodup)
    (hfield : ∀ m ∈ methods, methodId m ∉ fieldKeysOf pkg fields embeds) :
    ∀ m ∈ methods,
      (methodId m, some (⟨m, 1, false⟩ : Sel)) ∈ computeBase env qn := by
  intro m hm
  rw [computeBase_step, entryCands_struct env qn pkg sn doc file line fields
    embeds methods henv 1 false false]
  simp only [List.append_nil]
  apply bfsLoop_mono
  set ms0 := methods.map (fun m => (⟨m, 1, false, false⟩ : MCand)) with hms0
  set fs0 := fields.map (fun fl => (fieldId pkg fl.fname, false)) ++
    embeds.map (fun e => (fieldId pkg e.fieldName, false)) with hfs0
  have hkeys : fs0.map Prod.fst = fieldKeysOf pkg fields embeds := by
    simp only [hfs0, fieldKeysOf, List.map_append, List.map_map]
    rfl
  have hfs_none : fs0.any (fun p => p.1 == methodId m) = false := by
    rw [← Bool.not_eq_true, List.any_eq_true]
    rintro ⟨p, hp, hpk⟩
    apply hfield m hm
    rw [← hkeys]
    have : p.1 = methodId m := by simpa using hpk
    exact this ▸ List.mem_map_of_mem Prod.fst hp
  have hfilter : ms0.filter (fun c => methodId c.m == methodId m) =
      [⟨m, 1, false, false⟩] := by
    rw [hms0, List.filter_map]
    have : (fun c : MCand => methodId c.m == methodId m) ∘
        (fun m => (⟨m, 1, false, false⟩ : MCand)) =
        fun x => methodId x == methodId m := rfl
    rw [this, filter_key_singleton methodId methods hid m hm]
    rfl
  have hentry : depthEntry ms0 fs0 (methodId m) = some ⟨m, 1, false⟩ := by
    rw [depthEntry, if_neg (by simp [hfs_none]), hfilter]
    rfl
  have hkmem : methodId m ∈ depthKeys ms0 fs0 := by
    rw [depthKeys, List.mem_dedup]
    apply List.mem_append_left
    rw [hms0, List.map_map]
    exact List.mem_map_of_mem _ hm
  show (methodId m, some (⟨m, 1, false⟩ : Sel)) ∈ mergeDepth [] ms0 fs0
  rw [mergeDepth]
  apply List.mem_append_right
  have hfilter_all : (depthKeys ms0 fs0).filter (fun k => !(baseHas [] k)) =
      depthKeys ms0 fs0 :=
    List.filter_eq_self.mpr (fun a _ => rfl)
  rw [hfilter_all, ← hentry]
  exact List.mem_map_of_mem _ hkmem

/-- C4: for a struct type, the stored methods list is built from the full
pointer-form method set: every selection of the walk appears as a stored
entry, and, under Go's legality constraints (method names unique, not
clashing with field names), every directly declared method — value or
pointer receiver alike — is a selection of the set, on top of whatever the
walk reaches through embedded fields. -/
theorem c4_struct_methods_total (env : TEnv) (pkg sn doc file : String)
    (line : Nat) (fields : List FieldM) (embeds : List EmbedM)
    (methods : List MethodDecl)
    (henv : envLookup env (pkg ++ "." ++ sn) =
      some ⟨pkg, sn, .structB fields embeds methods, doc, file, line⟩)
    (hid : (methods.map methodId).Nodup)
    (hfield : ∀ m ∈ methods, methodId m ∉ fieldKeysOf pkg fields embeds) :
    (∀ s ∈ msetPtr env (pkg ++ "." ++ sn),
      selEntry pkg s ∈
        (typeInfoOf env
          ⟨pkg, sn, .structB fields embeds methods, doc, file, line⟩).methods) ∧
    (∀ m ∈ methods, (⟨m, 1, false⟩ : Sel) ∈ msetPtr env (pkg ++ "." ++ sn)) := by
  constructor
  · intro s hs
    show selEntry pkg s ∈ namedMethodsM env pkg (pkg ++ "." ++ sn)
    rw [namedMethodsM_eq]
    apply List.mem_map_of_mem
    exact (sortById_perm (fun s : Sel => s.m) _).mem_iff.mpr hs
  · intro m hm
    have hpair := depth0_pair env (pkg ++ "." ++ sn) pkg sn doc file line
      fields embeds methods henv hid hfield m hm
    rw [msetPtr, baseSels, List.mem_filterMap]
    exact ⟨_, hpair, rfl⟩

/-- C4, witness: both pointer-receiver methods declared directly on
`English` are in its pointer-form method set, and the promoted `Greet`
selection of `FormalEnglish` is stored in its methods list. -/
theorem c4_struct_methods_total_witness :
    envLookup Fix.fenv ("g" ++ "." ++ "English") = some Fix.dEnglish ∧
      (⟨Fix.mGreetEnglish, 1, false⟩ : Sel) ∈
        msetPtr Fix.fenv ("g" ++ "." ++ "English") ∧
      (⟨Fix.mBlankRecv, 1, false⟩ : Sel) ∈
        msetPtr Fix.fenv ("g" ++ "." ++ "English") ∧
      selEntry "g" (⟨Fix.mGreetFormal, 2, false⟩ : Sel) ∈
        (typeInfoOf Fix.fenv
          ⟨"g", "FormalEnglish", .structB [] [⟨"g.Formal", "Formal", false⟩] [],
            "dFE", "f.go", 68⟩).methods :=
  ⟨by decide,
   (c4_struct_methods_total Fix.fenv "g" "English" "dEnglish" "f.go" 13
     [⟨"Prefix", "string", "", "cPrefix"⟩] [] [Fix.mGreetEnglish, Fix.mBlankRecv]
     (by decide) (by decide) (by decide)).2 Fix.mGreetEnglish (by decide),
   (c4_struct_methods_total Fix.fenv "g" "English" "dEnglish" "f.go" 13
     [⟨"Prefix", "string", "", "cPrefix"⟩] [] [Fix.mGreetEnglish, Fix.mBlankRecv]
     (by decide) (by decide) (by decide)).2 Fix.mBlankRecv (by decide),
   (c4_struct_methods_total Fix.fenv "g" "FormalEnglish" "dFE" "f.go" 68
     [] [⟨"g.Formal", "Formal", false⟩] []
     (by decide) (by decide) (by decide)).1 (⟨Fix.mGreetFormal, 2, false⟩ : Sel)
     (by decide)⟩

/-- C5: for every selection of a struct type's pointer-form method set, the
stored entry's promoted flag is set exactly when `len(sel.Index()) > 1`,
i.e. the method was reached through at least one embedded-field hop; and,
under Go's legality constraints, that is exactly when the method is not
among the type's directly declared methods. -/
theorem c5_promoted_iff (env : TEnv) (pkg sn doc file : String) (line : Nat)
    (fields : List FieldM) (embeds : List EmbedM) (methods : List MethodDecl)
    (henv : envLookup env (pkg ++ "." ++ sn) =
      some ⟨pkg, sn, .structB fields embeds methods, doc, file, line⟩)
    (hid : (methods.map methodId).Nodup)
    (hfield : ∀ m ∈ methods, methodId m ∉ fieldKeysOf pkg fields embeds) :
    ∀ s ∈ msetPtr env (pkg ++ "." ++ sn),
      ((selEntry pkg s).isPromoted = true ↔ 2 ≤ s.indexLen) ∧
      (2 ≤ s.indexLen ↔ s.m ∉ methods) := by
  intro s hs
  constructor
  · by_cases h : 1 < s.indexLen
    · have hsel : (selEntry pkg s).isPromoted = true := by
        simp [selEntry, if_pos h]
      exact ⟨fun _ => by omega, fun _ => hsel⟩
    · have hsel : (selEntry pkg s).isPromoted = false := by
        simp [selEntry, if_neg h, funcInfoOf]
      constructor
      · intro h2
        rw [hsel] at h2
        cases h2
      · intro h2
        exact absurd h2 (by omega)
  · constructor
    · -- reached through an embedded hop: cannot be a direct declaration
      intro h2 hmem
      obtain ⟨p, hp, hps⟩ := List.mem_filterMap.mp hs
      have hkey : methodId s.m = p.1 :=
        bfsLoop_key_inv env (env.length + 2) [] [] [⟨pkg ++ "." ++ sn, 1, false, false⟩]
          (by intro q hq; cases hq) p hp s hps
      have hpeq : p = (methodId s.m, some s) := by
        rcases p with ⟨k, o⟩
        simp only at hps hkey
        rw [hkey, hps]
      have hpair0 := depth0_pair env (pkg ++ "." ++ sn) pkg sn doc file line
        fields embeds methods henv hid hfield s.m hmem
      have hnodup : (keysOf (computeBase env (pkg ++ "." ++ sn))).Nodup :=
        bfsLoop_keys_nodup env (env.length + 2) [] []
          [⟨pkg ++ "." ++ sn, 1, false, false⟩] (by simp [keysOf])
      have := assoc_unique _ hnodup (methodId s.m) (some s)
        (some (⟨s.m, 1, false⟩ : Sel)) (hpeq ▸ hp) hpair0
      have hsel : s = ⟨s.m, 1, false⟩ := Option.some.inj this
      have h1 : s.indexLen = 1 := by
        have := congrArg Sel.indexLen hsel
        simpa using this
      omega
    · -- not declared directly: must come from a deeper frontier
      intro hnot
      by_contra hlt
      have hs2 := hs
      rw [msetPtr, computeBase_step, entryCands_struct env (pkg ++ "." ++ sn)
        pkg sn doc file line fields embeds methods henv 1 false false] at hs2
      simp only [List.append_nil] at hs2
      have hnext : ∀ g ∈ embeds.map
          (fun e => (⟨e.qn, 1 + 1, false || e.isPtrE, false⟩ : Front)),
          2 ≤ g.ilen := by
        intro g hg
        rw [List.mem_map] at hg
        obtain ⟨e, _, he⟩ := hg
        rw [← he]
      rcases bfsLoop_sels_ge env (env.length + 1) _ _ _ hnext s hs2 with hb | hge
      · rcases sels_mergeDepth _ _ _ s hb with hnil | ⟨c, hc, _, hsc⟩
        · simp [baseSels] at hnil
        · rw [List.mem_map] at hc
          obtain ⟨m, hmmem, hmc⟩ := hc
          apply hnot
          have : s.m = m := by
            rw [hsc, ← hmc]
          rw [this]
          exact hmmem
      · exact hlt hge

/-- C5, witness: on the two-package environment, `T`'s own method `a` is a
depth-zero selection (not promoted) and the promoted selection `z` reached
through the embedded `B` satisfies the characterization. -/
theorem c5_promoted_iff_witness :
    (⟨Fix.maz, 2, false⟩ : Sel) ∈ msetPtr Fix.env6 ("z" ++ "." ++ "T") ∧
      ((selEntry "z" (⟨Fix.maz, 2, false⟩ : Sel)).isPromoted = true ↔
        2 ≤ (⟨Fix.maz, 2, false⟩ : Sel).indexLen) ∧
      (2 ≤ (⟨Fix.maz, 2, false⟩ : Sel).indexLen ↔
        (⟨Fix.maz, 2, false⟩ : Sel).m ∉ [Fix.mza]) :=
  ⟨by decide,
   (c5_promoted_iff Fix.env6 "z" "T" "" "" 0 [] [⟨"a.B", "B", false⟩] [Fix.mza]
     (by decide) (by decide) (by decide) (⟨Fix.maz, 2, false⟩ : Sel) (by decide)).1,
   (c5_promoted_iff Fix.env6 "z" "T" "" "" 0 [] [⟨"a.B", "B", false⟩] [Fix.mza]
     (by decide) (by decide) (by decide) (⟨Fix.maz, 2, false⟩ : Sel) (by decide)).2⟩

end GoLens
